import Mathlib

/-!
Verification of the g2 skills engine (`skills_engine/`) against its
natural-language specification.  Python modules are shallowly embedded:
files are modelled as partial maps from path strings to content strings,
stateful pipelines as explicit world-passing functions, SHA-256 as an
abstract hash parameter, and subprocess calls (merge tool, rerere, shell
commands) as oracle parameters.  Machine-level concerns (inode layout,
symlinks, concurrency interleavings) are outside the model.
-/

deriving instance DecidableEq for Except

namespace G2

/-! ### Filesystem model

A file tree is a partial map from project-relative path strings to file
contents.  `shutil.copy2` / `write_text` become `fsSet`, `unlink` becomes
`fsDel`. -/

abbrev FS := String → Option String

def fsSet (fs : FS) (p : String) (c : String) : FS :=
  fun q => if q = p then some c else fs q

def fsDel (fs : FS) (p : String) : FS :=
  fun q => if q = p then none else fs q

/-! ### String suffix helpers

`str.endswith(suffix)` and `str[:-len(suffix)]` from `backup.py`, embedded
through the underlying character lists. -/

def strEndsWith (s suffix : String) : Bool :=
  suffix.data.isSuffixOf s.data

def strDropSuffix (s suffix : String) : String :=
  ⟨s.data.take (s.data.length - suffix.data.length)⟩

/-! ### `skills_engine/backup.py`

`create_backup` copies each existing file into the backup tree and records a
zero-byte `<name>.tombstone` entry for each path that does not exist.
`restore_backup` walks the backup entries in order: a tombstone entry deletes
the corresponding working-tree file, any other entry is copied back.
The backup tree is modelled as the ordered list of entries it holds; paths
are taken already canonical (the source canonicalises each path with
`Path.resolve().relative_to(cwd)` before using it as the backup key). -/

def tombstoneSuffix : String := ".tombstone"

def backupEntry (fs : FS) (p : String) : String × String :=
  match fs p with
  | some c => (p, c)
  | none => (p ++ tombstoneSuffix, "")

def createBackup (fs : FS) (paths : List String) : List (String × String) :=
  paths.map (backupEntry fs)

def restoreEntry (cur : FS) (e : String × String) : FS :=
  if strEndsWith e.1 tombstoneSuffix then
    fsDel cur (strDropSuffix e.1 tombstoneSuffix)
  else
    fsSet cur e.1 e.2

def restoreBackup (entries : List (String × String)) (cur : FS) : FS :=
  entries.foldl restoreEntry cur

/-- The effect a backup entry has on the observation point `p`
(used only in proofs about `restoreBackup`). -/
def entryEffectAt (p : String) (e : String × String) : Option String :=
  if e.1 = p ++ tombstoneSuffix then none else some e.2

/-- Whether a backup entry touches the observation point `p`. -/
def touchesB (p : String) (e : String × String) : Bool :=
  e.1 = p || e.1 = p ++ tombstoneSuffix

/-! ### `skills_engine/lock.py`

The lock file holds `{pid, timestamp}`.  `acquire_lock` on an existing,
well-formed lock file fails with a contention error iff the holder is fresh
(not older than 5 minutes) and its pid is alive; otherwise the file is
removed and re-created for the caller.  `release_lock` deletes a well-formed
lock file only when its pid is the caller's; a corrupt file is deleted
unconditionally.  Time is modelled in integer seconds, liveness of a pid as
a predicate. -/

structure LockInfo where
  pid : Nat
  timestamp : Int
deriving DecidableEq, Repr

inductive LockFile where
  | absent
  | corrupt
  | info (l : LockInfo)
deriving DecidableEq, Repr

def staleTimeoutS : Int := 5 * 60

def isStale (now : Int) (l : LockInfo) : Bool :=
  now - l.timestamp > staleTimeoutS

inductive AcquireOutcome where
  | acquired
  | contention
deriving DecidableEq, Repr

def acquireLock (now : Int) (myPid : Nat) (alive : Nat → Bool)
    (f : LockFile) : AcquireOutcome × LockFile :=
  match f with
  | .absent => (.acquired, .info ⟨myPid, now⟩)
  | .corrupt => (.acquired, .info ⟨myPid, now⟩)
  | .info l =>
    if !(isStale now l) && alive l.pid then
      (.contention, .info l)
    else
      (.acquired, .info ⟨myPid, now⟩)

def releaseLock (myPid : Nat) (f : LockFile) : LockFile :=
  match f with
  | .absent => .absent
  | .corrupt => .absent
  | .info l => if l.pid = myPid then .absent else .info l

/-! ### String splitting

Python's `str.split(sep)` for a one-character separator, embedded as a
structural recursion over the character list (so that concrete instances
reduce inside the kernel).  `"".split(".") = [""]` and separators at the
ends produce empty parts, as in Python. -/

def splitOnCharAux (sep : Char) : List Char → List Char → List String
  | [], acc => [⟨acc.reverse⟩]
  | c :: cs, acc =>
    if c = sep then ⟨acc.reverse⟩ :: splitOnCharAux sep cs []
    else splitOnCharAux sep cs (c :: acc)

def splitOnChar (sep : Char) (s : String) : List String :=
  splitOnCharAux sep s.data []

/-- `pre.isPrefixOf s` on the character lists (Python `str.startswith`). -/
def strStartsWith (s pre : String) : Bool :=
  pre.data.isPrefixOf s.data

/-! ### `skills_engine/state.py` — semver comparison

`compare_semver` splits both strings on `.`, converts each part with `int()`
and walks the indices left to right with missing parts read as `0`,
returning the first non-zero difference.  `int()` is modelled for unsigned
decimal digit strings; any other part is a parse failure (`ValueError`),
surfaced as `none`. -/

def strToInt? (s : String) : Option Int :=
  if s ≠ "" && s.data.all Char.isDigit then
    some (s.data.foldl (fun acc c => acc * 10 + (c.toNat - '0'.toNat)) (0 : Int))
  else
    none

/-- The index loop of `compare_semver` once the first list is exhausted:
remaining indices compare `0` against the parts of `b`. -/
def cmpZeroParts : List Int → Int
  | [] => 0
  | y :: ys => if 0 - y = 0 then cmpZeroParts ys else 0 - y

def cmpPartsLoop : List Int → List Int → Int
  | [], b => cmpZeroParts b
  | x :: xs, [] => if x - 0 = 0 then cmpPartsLoop xs [] else x - 0
  | x :: xs, y :: ys => if x - y = 0 then cmpPartsLoop xs ys else x - y

def parsePartsList : List String → Option (List Int)
  | [] => some []
  | s :: rest =>
    match strToInt? s with
    | none => none
    | some v =>
      match parsePartsList rest with
      | none => none
      | some vs => some (v :: vs)

def parseParts (s : String) : Option (List Int) :=
  parsePartsList (splitOnChar '.' s)

def compareSemver (a b : String) : Option Int := do
  let pa ← parseParts a
  let pb ← parseParts b
  pure (cmpPartsLoop pa pb)

/-- Zero-padding of a numeric part list to length `n` (the specification's
"missing components treated as zero"). -/
def padZero (l : List Int) (n : Nat) : List Int :=
  l ++ List.replicate (n - l.length) 0

/-! ### `skills_engine/structured.py` — npm version-range compatibility

`are_ranges_compatible` special-cases two caret ranges (string-equal major
part required) and two tilde ranges (string-equal major part, and equal
minor part when both ranges spell one out), resolving to the side whose
part list compares numerically higher in `_compare_version_parts`; every
other differing combination is incompatible.  `int()` failures inside
`_compare_version_parts` (`ValueError`) surface as `none`. -/

structure RangeResult where
  compatible : Bool
  resolved : String
deriving DecidableEq, Repr

/-- `_compare_version_parts` once the first list is exhausted: remaining
indices compare `0` against parsed parts of `b`. -/
def cmpZeroPartsS : List String → Option Int
  | [] => some 0
  | y :: ys =>
    match strToInt? y with
    | none => none
    | some yv => if 0 - yv = 0 then cmpZeroPartsS ys else some (0 - yv)

/-- `_compare_version_parts`: index loop with lazy `int()` conversion —
a malformed part is only a `ValueError` if the loop actually reaches it. -/
def cmpPartsS : List String → List String → Option Int
  | [], b => cmpZeroPartsS b
  | x :: xs, [] =>
    match strToInt? x with
    | none => none
    | some xv => if xv - 0 = 0 then cmpPartsS xs [] else some (xv - 0)
  | x :: xs, y :: ys =>
    match strToInt? x with
    | none => none
    | some xv =>
      match strToInt? y with
      | none => none
      | some yv => if xv - yv = 0 then cmpPartsS xs ys else some (xv - yv)

/-- Python `s[1:]`. -/
def strDrop1 (s : String) : String := ⟨s.data.drop 1⟩

/-- The `.`-split part list of a range with its `^`/`~` prefix removed. -/
def rangeParts (s : String) : List String :=
  splitOnChar '.' (strDrop1 s)

def areRangesCompatible (existing requested : String) : Option RangeResult :=
  if existing = requested then some ⟨true, existing⟩
  else if strStartsWith existing "^" && strStartsWith requested "^" then
    let e := rangeParts existing
    let r := rangeParts requested
    if e.headD "" ≠ r.headD "" then some ⟨false, existing⟩
    else
      match cmpPartsS e r with
      | none => none
      | some c => some ⟨true, if 0 ≤ c then existing else requested⟩
  else if strStartsWith existing "~" && strStartsWith requested "~" then
    let e := rangeParts existing
    let r := rangeParts requested
    if e.headD "" ≠ r.headD ""
        ∨ (1 < e.length ∧ 1 < r.length ∧ e.getD 1 "" ≠ r.getD 1 "") then
      some ⟨false, existing⟩
    else
      match cmpPartsS e r with
      | none => none
      | some c => some ⟨true, if 0 ≤ c then existing else requested⟩
  else some ⟨false, existing⟩

/-! ### `skills_engine/structured.py` — env-file merge

`merge_env_additions` reads the file (missing file reads as empty), collects
the names already declared by lines matching `^([A-Za-z_][A-Za-z0-9_]*)=`,
filters the additions against that set, and — when any remain — appends a
`# Added by skill` block.  The file is written only in that case.  The
result is the file's post-call state (`none` = still missing). -/

def isIdentStart (c : Char) : Bool := c.isAlpha || c = '_'

def isIdentChar (c : Char) : Bool := c.isAlphanum || c = '_'

/-- The variable name declared by a line, per the regex
`^([A-Za-z_][A-Za-z0-9_]*)=` (a maximal identifier run followed by `=`;
since `=` is not an identifier character, the maximal run is the only
possible match). -/
def lineVar? (line : String) : Option String :=
  match line.data with
  | [] => none
  | c :: cs =>
    if isIdentStart c then
      match cs.dropWhile isIdentChar with
      | '=' :: _ => some ⟨c :: cs.takeWhile isIdentChar⟩
      | _ => none
    else none

def envExistingVars (content : String) : List String :=
  (splitOnChar '\n' content).filterMap lineVar?

def strConcat : List String → String :=
  List.foldl (· ++ ·) ""

def mergeEnvAdditions (file : Option String) (additions : List String) :
    Option String :=
  let content := file.getD ""
  let existing := envExistingVars content
  let newVars := additions.filter (fun v => !(existing.contains v))
  if newVars = [] then file
  else
    let content1 :=
      if content ≠ "" && !(strEndsWith content "\n") then content ++ "\n"
      else content
    some (content1 ++ "\n# Added by skill\n"
      ++ strConcat (newVars.map (fun v => v ++ "=\n")))

/-! ### `skills_engine/structured.py` — docker-compose service merge

A service definition is modelled by its optional `ports` list (the only
field the merge inspects; non-dict definitions and non-list `ports` read as
`none`) — the definition itself is inserted verbatim.  Host ports are
extracted from each `ports` entry split on `:`: entries with at least two
segments yield their first segment; a bare `PORT` entry yields nothing.
New services are inserted in order; a service whose name already exists is
skipped; a host port already in the used set raises the port-collision
error, and the file is written only after the whole loop succeeds. -/

structure SvcDef where
  ports : Option (List String)
deriving DecidableEq, Repr

abbrev ComposeServices := List (String × SvcDef)

def extractHostPort (s : String) : Option String :=
  match splitOnChar ':' s with
  | [] => none
  | [_] => none
  | p :: _ :: _ => some p

def svcHostPorts (svc : SvcDef) : List String :=
  (svc.ports.getD []).filterMap extractHostPort

def collectUsedPorts (svcs : ComposeServices) : List String :=
  svcs.foldl (fun acc e => acc ++ svcHostPorts e.2) []

def checkPortsLoop (name : String) (used : List String) :
    List String → Except String (List String)
  | [] => .ok used
  | p :: ps =>
    match extractHostPort p with
    | none => checkPortsLoop name used ps
    | some h =>
      if used.contains h then
        .error ("Port collision: host port " ++ h ++ " from service \""
          ++ name ++ "\" is already in use")
      else checkPortsLoop name (used ++ [h]) ps

def insertServicesLoop (existing : ComposeServices) (used : List String) :
    List (String × SvcDef) → Except String ComposeServices
  | [] => .ok existing
  | (name, defn) :: rest =>
    if (existing.lookup name).isSome then
      insertServicesLoop existing used rest
    else
      match checkPortsLoop name used (defn.ports.getD []) with
      | .error msg => .error msg
      | .ok used' => insertServicesLoop (existing ++ [(name, defn)]) used' rest

def mergeDockerComposeServices (file : Option ComposeServices)
    (newSvcs : List (String × SvcDef)) : Except String ComposeServices :=
  let existing := file.getD []
  insertServicesLoop existing (collectUsedPorts existing) newSvcs

/-- The post-call state of the compose file: written only when the merge
loop completed without raising. -/
def applyComposeMerge (file : Option ComposeServices)
    (newSvcs : List (String × SvcDef)) : Option ComposeServices :=
  match mergeDockerComposeServices file newSvcs with
  | .ok svcs => some svcs
  | .error _ => file

/-! ### Python `dict.update` (structured aggregation in `replay.py`)

`d[k] = v` replaces the value in place when the key is present (keeping its
position) and appends otherwise; `d.update(new)` assigns every pair of
`new` in order. -/

def upsert {α : Type} (d : List (String × α)) (k : String) (v : α) :
    List (String × α) :=
  if (d.lookup k).isSome then
    d.map (fun e => if e.1 = k then (k, v) else e)
  else d ++ [(k, v)]

def dictUpdate {α : Type} (d new : List (String × α)) : List (String × α) :=
  new.foldl (fun acc e => upsert acc e.1 e.2) d

/-! ### Path resolution (`file_ops._safe_path`, `Path.resolve`)

A relative path is resolved by normalising its `/`-separated segments:
empty and `.` segments vanish, `..` pops; popping above the project root —
or an absolute path, which replaces the root — resolves outside the root
and is rejected (`none`).  Symlinks are not part of the model. -/

def normSegsAux : List String → List String → Option (List String)
  | [], acc => some acc.reverse
  | s :: rest, acc =>
    if s = "" ∨ s = "." then normSegsAux rest acc
    else if s = ".." then
      match acc with
      | [] => none
      | _ :: acc' => normSegsAux rest acc'
    else normSegsAux rest (s :: acc)

def joinSegs : List String → String
  | [] => ""
  | [s] => s
  | s :: rest => s ++ "/" ++ joinSegs rest

def safePath (rel : String) : Option String :=
  if strStartsWith rel "/" then none
  else (normSegsAux (splitOnChar '/' rel) []).map joinSegs

def mapSafePaths : List String → Option (List String)
  | [] => some []
  | p :: rest =>
    match safePath p with
    | none => none
    | some n =>
      match mapSafePaths rest with
      | none => none
      | some ns => some (n :: ns)

/-! ### Manifest, ledger and skill package (`types.py`, `manifest.py`)

`structured` is modelled as `none` for a falsy value (absent or empty
mapping); each structured field is a list read as empty when absent.
Python truthiness of optional strings (`None` and `""` are falsy) is
`optTruthy`. -/

def optTruthy : Option String → Bool
  | some s => s ≠ ""
  | none => false

/-- Python `sub in s` (substring test), on character lists. -/
def containsSub : List Char → List Char → Bool
  | [], needle => needle.isPrefixOf []
  | h :: t, needle => needle.isPrefixOf (h :: t) || containsSub t needle

structure FileOpM where
  type : String
  from_ : Option String
  to_ : Option String
  path_ : Option String
deriving DecidableEq, Repr

structure StructuredM where
  npm_dependencies : List (String × String)
  env_additions : List String
  docker_compose_services : List (String × SvcDef)
deriving DecidableEq, Repr

structure ManifestM where
  skill : String
  version : String
  core_version : String
  adds : List String
  modifies : List String
  conflicts : List String
  depends : List String
  file_ops : List FileOpM
  structured : Option StructuredM
  post_apply : List String
  test : Option String
  min_skills_system_version : Option String
deriving DecidableEq, Repr

def manifestNpmDeps (m : ManifestM) : List (String × String) :=
  (m.structured.map (·.npm_dependencies)).getD []

def manifestEnvAdds (m : ManifestM) : List String :=
  (m.structured.map (·.env_additions)).getD []

def manifestDockerSvcs (m : ManifestM) : List (String × SvcDef) :=
  (m.structured.map (·.docker_compose_services)).getD []

/-- `read_manifest` rejects an `adds`/`modifies` path containing the
substring `..` or starting with `/` (`PurePosixPath.is_absolute`). -/
def manifestBadPath (p : String) : Bool :=
  containsSub p.data (".." : String).data || strStartsWith p "/"

structure OutcomesM where
  structured : Option StructuredM
  test : Option String
deriving DecidableEq, Repr

structure AppliedSkillM where
  name : String
  version : String
  applied_at : String
  file_hashes : List (String × String)
  structured_outcomes : Option OutcomesM
deriving DecidableEq, Repr

structure CustomModM where
  description : String
  applied_at : String
  files_modified : List String
  patch_file : String
deriving DecidableEq, Repr

structure SkillStateM where
  skills_system_version : String
  core_version : String
  applied_skills : List AppliedSkillM
  custom_modifications : Option (List CustomModM)
  path_remap : Option (List (String × String))
  rebased_at : Option String
deriving DecidableEq, Repr

def skillsSchemaVersion : String := "0.1.0"

def resolvePathRemap (remap : List (String × String)) (p : String) : String :=
  (remap.lookup p).getD p

/-- `record_skill_application`: drop any previous record of the same skill,
append the fresh one. -/
def recordSkillApplication (st : SkillStateM) (name version appliedAt : String)
    (fh : List (String × String)) (outcomes : Option OutcomesM) : SkillStateM :=
  { st with applied_skills :=
      (st.applied_skills.filter (fun s => s.name ≠ name))
        ++ [⟨name, version, appliedAt, fh, outcomes⟩] }

/-! ### `skills_engine/file_ops.py` -/

structure FileOpsResultM where
  success : Bool
  errors : List String
  warnings : List String
deriving DecidableEq, Repr

def fileOpsFail (msg : String) (work : FS) : FileOpsResultM × FS :=
  ({ success := false, errors := [msg], warnings := [] }, work)

def executeFileOps : List FileOpM → FS → FileOpsResultM × FS
  | [], work => ({ success := true, errors := [], warnings := [] }, work)
  | op :: rest, work =>
    if op.type = "rename" || op.type = "move" then
      -- rename and move differ only in directory creation, outside the model
      if !(optTruthy op.from_) || !(optTruthy op.to_) then
        fileOpsFail (op.type ++ ": requires from and to") work
      else
        match safePath (op.from_.getD "") with
        | none => fileOpsFail (op.type ++ ": path escapes project root") work
        | some f =>
          match safePath (op.to_.getD "") with
          | none => fileOpsFail (op.type ++ ": path escapes project root") work
          | some t =>
            match work f with
            | none => fileOpsFail (op.type ++ ": source does not exist") work
            | some c =>
              if (work t).isSome then
                fileOpsFail (op.type ++ ": target already exists") work
              else executeFileOps rest (fsSet (fsDel work f) t c)
    else if op.type = "delete" then
      if !(optTruthy op.path_) then fileOpsFail "delete: requires path" work
      else
        match safePath (op.path_.getD "") with
        | none => fileOpsFail "delete: path escapes project root" work
        | some d =>
          match work d with
          | none =>
            let (res, w') := executeFileOps rest work
            ({ res with warnings := ("delete: file does not exist (skipped): "
                ++ op.path_.getD "") :: res.warnings }, w')
          | some _ => executeFileOps rest (fsDel work d)
    else fileOpsFail ("unknown operation type: " ++ op.type) work

/-! ### `skills_engine/apply.py`

The world carries the working tree, the `.g2/base` tree, the transient
backup, the ledger, the customize-session marker, the lock flag, and a
trace of the externally observable actions (structured merges, `npm
install`, `post_apply` and `test` commands).  Subprocess behaviour — the
three-way merge tool, rerere, the npm/compose mergers operating on the
serialized files, shell commands — is abstracted into oracles, universally
quantified in every theorem.  `load_resolutions` only seeds git's rr-cache,
which the rerere oracle abstracts, so it has no world effect here. -/

inductive EventM where
  | npmMergeEv
  | envMergeEv
  | composeMergeEv
  | npmInstallEv
  | postApplyEv (cmd : String)
  | testEv (cmd : String)
deriving DecidableEq, Repr

structure ApplyWorld where
  work : FS
  base : FS
  backup : Option (List (String × String))
  ledger : SkillStateM
  customizeActive : Bool
  lockHeld : Bool
  events : List EventM

structure MergeResM where
  clean : Bool
  content : String
deriving DecidableEq, Repr

structure ApplyOracles where
  mergeFile : String → String → String → MergeResM
  isGitRepo : Bool
  rerere : String → String → String → String → Option String
  hashFn : String → String
  npmMergeO : String → List (String × String) → Except Unit String
  composeMergeO : Option String → List (String × SvcDef) → Except Unit String
  runCmd : String → Bool
  npmInstallOk : Bool
  nowTs : String

structure SkillPkgM where
  manifest : ManifestM
  addFiles : FS
  modifyFiles : FS

structure ApplyResultM where
  success : Bool
  skill : String
  version : String
  merge_conflicts : Option (List String)
  backup_pending : Option Bool
  untracked_changes : Option (List String)
  error : Option String
deriving DecidableEq, Repr

/-- The backup set of an apply: every (remapped) modify and add path, every
truthy `file_ops.from`, and the four structured target files. -/
def applyFilesToBackup (m : ManifestM) (remap : List (String × String)) :
    List String :=
  m.modifies.map (resolvePathRemap remap)
  ++ m.adds.map (resolvePathRemap remap)
  ++ (m.file_ops.filterMap (fun op =>
      if optTruthy op.from_ then some (resolvePathRemap remap (op.from_.getD ""))
      else none))
  ++ ["package.json", "package-lock.json", ".env.example", "docker-compose.yml"]

/-- The `adds` copy loop: copy each packaged file to its (remapped)
destination, remembering destinations that did not previously exist. -/
def copyAdds (addFiles : FS) (remap : List (String × String)) :
    List String → FS → FS × List String
  | [], work => (work, [])
  | rel :: rest, work =>
    let resolved := resolvePathRemap remap rel
    let added := (work resolved).isNone
    let work1 :=
      match addFiles rel with
      | some c => fsSet work resolved c
      | none => work
    let (w2, rest') := copyAdds addFiles remap rest work1
    (w2, (if added then [resolved] else []) ++ rest')

/-- The `modifies` merge loop.  Returns the updated working tree and base
tree and the ordered unresolved-conflict list, or the message of a raised
exception (packaged file missing). -/
def applyMerges (o : ApplyOracles) (modifyFiles : FS)
    (remap : List (String × String)) :
    List String → FS → FS → Except String (FS × FS × List String)
  | [], work, base => .ok (work, base, [])
  | rel :: rest, work, base =>
    let resolved := resolvePathRemap remap rel
    match modifyFiles rel with
    | none => .error ("Skill modified file not found: " ++ rel)
    | some skillContent =>
      match work resolved with
      | none =>
        applyMerges o modifyFiles remap rest (fsSet work resolved skillContent) base
      | some cur =>
        let bb : FS × String :=
          match base resolved with
          | none => (fsSet base resolved cur, cur)
          | some b => (base, b)
        let res := o.mergeFile cur bb.2 skillContent
        if res.clean then
          applyMerges o modifyFiles remap rest (fsSet work resolved res.content) bb.1
        else
          match (if o.isGitRepo then o.rerere res.content bb.2 cur skillContent
                 else none) with
          | some autoResolved =>
            applyMerges o modifyFiles remap rest
              (fsSet work resolved autoResolved) bb.1
          | none =>
            match applyMerges o modifyFiles remap rest
                (fsSet work resolved res.content) bb.1 with
            | .ok (w2, b2, cs) => .ok (w2, b2, rel :: cs)
            | .error e => .error e

/-- The structured-merge phase: npm dependencies, env additions,
docker-compose services, then `npm install`, each traced. -/
def applyStructured (o : ApplyOracles) (m : ManifestM) (work : FS)
    (events : List EventM) : Except String (FS × List EventM) :=
  let npmStep : Except String (FS × List EventM) :=
    if manifestNpmDeps m ≠ [] then
      match work "package.json" with
      | none => .error "package.json not found"
      | some content =>
        match o.npmMergeO content (manifestNpmDeps m) with
        | .error _ => .error "Dependency conflict"
        | .ok s => .ok (fsSet work "package.json" s, events ++ [.npmMergeEv])
    else .ok (work, events)
  match npmStep with
  | .error e => .error e
  | .ok (work1, ev1) =>
    let (work2, ev2) :=
      if manifestEnvAdds m ≠ [] then
        (match mergeEnvAdditions (work1 ".env.example") (manifestEnvAdds m) with
         | some s => fsSet work1 ".env.example" s
         | none => work1, ev1 ++ [.envMergeEv])
      else (work1, ev1)
    let composeStep : Except String (FS × List EventM) :=
      if manifestDockerSvcs m ≠ [] then
        match o.composeMergeO (work2 "docker-compose.yml")
            (manifestDockerSvcs m) with
        | .error _ => .error "Port collision"
        | .ok s => .ok (fsSet work2 "docker-compose.yml" s, ev2 ++ [.composeMergeEv])
      else .ok (work2, ev2)
    match composeStep with
    | .error e => .error e
    | .ok (work3, ev3) =>
      if manifestNpmDeps m ≠ [] then
        if o.npmInstallOk then .ok (work3, ev3 ++ [.npmInstallEv])
        else .error "npm install failed"
      else .ok (work3, ev3)

/-- The `post_apply` loop: each command is traced; the first failing
command is reported. -/
def runPostApply (o : ApplyOracles) :
    List String → List EventM → List EventM × Option String
  | [], events => (events, none)
  | cmd :: rest, events =>
    let events1 := events ++ [.postApplyEv cmd]
    if o.runCmd cmd then runPostApply o rest events1
    else (events1, some cmd)

/-- Refreshed `file_hashes` over the add/modify paths that exist. -/
def buildFileHashes (o : ApplyOracles) (remap : List (String × String))
    (work : FS) : List String → List (String × String) → List (String × String)
  | [], acc => acc
  | rel :: rest, acc =>
    let resolved := resolvePathRemap remap rel
    match work resolved with
    | some c => buildFileHashes o remap work rest (upsert acc resolved (o.hashFn c))
    | none => buildFileHashes o remap work rest acc

/-- The cleanup shared by the exception handler and the `post_apply`/`test`
rollbacks: delete the files this apply newly added, restore the backup,
clear it, release the lock. -/
def rollbackWorld (w : ApplyWorld) (workNow : FS) (added : List String) :
    FS :=
  let work1 := added.foldl fsDel workNow
  match w.backup with
  | some entries => restoreBackup entries work1
  | none => work1

/-- The commit phase of `apply_skill`: structured merges, `npm install`,
`post_apply` commands, ledger write, `test` command, backup clear.
`w1` carries the pending backup; `workM`/`baseM` are the trees after the
merge loop; `added` are the paths newly created by the adds copy. -/
def applyCommit (o : ApplyOracles) (m : ManifestM)
    (remap : List (String × String)) (driftFiles : List String)
    (added : List String) (w1 : ApplyWorld) (workM : FS) (baseM : FS) :
    Except String ApplyResultM × ApplyWorld :=
  match applyStructured o m workM w1.events with
  | .error e =>
    (.error e,
     { w1 with work := rollbackWorld w1 workM added, base := baseM,
               backup := none, lockHeld := false })
  | .ok (workS, evS) =>
    match runPostApply o m.post_apply evS with
    | (evP, some failedCmd) =>
      (.ok { success := false, skill := m.skill, version := m.version,
             merge_conflicts := none, backup_pending := none,
             untracked_changes := none,
             error := some ("post_apply command failed: " ++ failedCmd) },
       { w1 with work := rollbackWorld w1 workS added, base := baseM,
                 backup := none, lockHeld := false, events := evP })
    | (evP, none) =>
      let fh := buildFileHashes o remap workS (m.adds ++ m.modifies) []
      let outcomes : Option OutcomesM :=
        if m.structured.isSome || optTruthy m.test then
          some ⟨m.structured, if optTruthy m.test then m.test else none⟩
        else none
      let ledger1 := recordSkillApplication w1.ledger m.skill m.version
        o.nowTs fh outcomes
      match (if optTruthy m.test then m.test else none) with
      | some t =>
        let evT := evP ++ [.testEv t]
        if o.runCmd t then
          (.ok { success := true, skill := m.skill, version := m.version,
                 merge_conflicts := none, backup_pending := none,
                 untracked_changes :=
                   if driftFiles ≠ [] then some driftFiles else none,
                 error := none },
           { w1 with work := workS, base := baseM, ledger := ledger1,
                     backup := none, lockHeld := false, events := evT })
        else
          let removed := ledger1.applied_skills.filter
            (fun s => s.name ≠ m.skill)
          let ledger2 : SkillStateM := { ledger1 with applied_skills := removed }
          (.ok { success := false, skill := m.skill, version := m.version,
                 merge_conflicts := none, backup_pending := none,
                 untracked_changes := none, error := some "Tests failed" },
           { w1 with work := rollbackWorld w1 workS added, base := baseM,
                     ledger := ledger2, backup := none, lockHeld := false,
                     events := evT })
      | none =>
        (.ok { success := true, skill := m.skill, version := m.version,
               merge_conflicts := none, backup_pending := none,
               untracked_changes :=
                 if driftFiles ≠ [] then some driftFiles else none,
               error := none },
         { w1 with work := workS, base := baseM, ledger := ledger1,
                   backup := none, lockHeld := false, events := evP })

/-- The locked phase of `apply_skill`: backup creation, `file_ops`, adds
copy, merge loop, conflicts return, then the commit phase. -/
def applyMain (o : ApplyOracles) (pkg : SkillPkgM) (w : ApplyWorld)
    (m : ManifestM) (remap : List (String × String))
    (driftFiles : List String) : Except String ApplyResultM × ApplyWorld :=
  match mapSafePaths (applyFilesToBackup m remap) with
  | none =>
    -- create_backup raised resolving a path outside the root
    (.error "path outside project root", { w with lockHeld := false })
  | some backupPaths =>
    let entries := createBackup w.work backupPaths
    let w1 : ApplyWorld := { w with backup := some entries, lockHeld := true }
    let (foRes, workFo) := executeFileOps m.file_ops w1.work
    if !foRes.success then
      (.ok { success := false, skill := m.skill, version := m.version,
             merge_conflicts := none, backup_pending := none,
             untracked_changes := none,
             error := some "File operations failed" },
       { w1 with work := restoreBackup entries workFo, backup := none,
                 lockHeld := false })
    else
      let (workAdd, added) := copyAdds pkg.addFiles remap m.adds workFo
      match applyMerges o pkg.modifyFiles remap m.modifies workAdd w1.base with
      | .error e =>
        (.error e,
         { w1 with work := rollbackWorld w1 workAdd added, backup := none,
                   lockHeld := false })
      | .ok (workM, baseM, conflicts) =>
        if conflicts ≠ [] then
          (.ok { success := false, skill := m.skill, version := m.version,
                 merge_conflicts := some conflicts,
                 backup_pending := some true,
                 untracked_changes :=
                   if driftFiles ≠ [] then some driftFiles else none,
                 error := some "Merge conflicts" },
           { w1 with work := workM, base := baseM, lockHeld := false })
        else applyCommit o m remap driftFiles added w1 workM baseM

def applySkill (o : ApplyOracles) (pkg : SkillPkgM) (w : ApplyWorld) :
    Except String ApplyResultM × ApplyWorld :=
  let m := pkg.manifest
  if (m.adds ++ m.modifies).any manifestBadPath then
    (.error "Invalid path in manifest", w)
  else
    match compareSemver w.ledger.skills_system_version skillsSchemaVersion with
    | none => (.error "ValueError", w)
    | some cmpState =>
      if 0 < cmpState then (.error "state.yaml newer than tooling", w)
      else
        match (match m.min_skills_system_version with
               | none => Except.ok true
               | some v =>
                 if v = "" then Except.ok true
                 else
                   match compareSemver v skillsSchemaVersion with
                   | none => Except.error "ValueError"
                   | some c => Except.ok (decide (¬ 0 < c))) with
        | .error e => (.error e, w)
        | .ok sysOk =>
          if !sysOk then
            (.ok { success := false, skill := m.skill, version := m.version,
                   merge_conflicts := none, backup_pending := none,
                   untracked_changes := none,
                   error := some "Skill requires newer skills system" }, w)
          else
            match compareSemver m.core_version w.ledger.core_version with
            | none => (.error "ValueError", w)
            | some _ =>
              if w.customizeActive then
                (.ok { success := false, skill := m.skill, version := m.version,
                       merge_conflicts := none, backup_pending := none,
                       untracked_changes := none,
                       error := some "A customize session is active" }, w)
              else
                let appliedNames := w.ledger.applied_skills.map (·.name)
                if m.depends.any (fun d => !(appliedNames.contains d)) then
                  (.ok { success := false, skill := m.skill, version := m.version,
                         merge_conflicts := none, backup_pending := none,
                         untracked_changes := none,
                         error := some "Missing dependencies" }, w)
                else if m.conflicts.any (fun c => appliedNames.contains c) then
                  (.ok { success := false, skill := m.skill, version := m.version,
                         merge_conflicts := none, backup_pending := none,
                         untracked_changes := none,
                         error := some "Conflicting skills" }, w)
                else
                  let remap := w.ledger.path_remap.getD []
                  let driftFiles := m.modifies.filter (fun rel =>
                    let rp := resolvePathRemap remap rel
                    match w.work rp, w.base rp with
                    | some c, some b => o.hashFn c ≠ o.hashFn b
                    | _, _ => false)
                  applyMain o pkg w m remap driftFiles

/-! ### `skills_engine/replay.py`

`replay_skills` resets every touched file to base, replays each named skill
in list order (file_ops, adds, three-way merges), aggregates the structured
fields across skills — `dict.update` for npm dependencies and docker
services, list `extend` for env additions — and applies the aggregates once
after the loop.  Step 1 (`skill_dirs` lookup + `read_manifest`) runs
*outside* the per-skill `try`, so a missing directory is a structured
failure while an invalid manifest propagates as an exception.  The reset
set is a Python `set`; its per-path operations are independent, so it is
modelled as the first-occurrence-deduplicated list.  `npm install` failures
are suppressed (`contextlib.suppress`). -/

structure ReplayAcc where
  work : FS
  base : FS
  perSkill : List (String × Bool)
  npmAgg : List (String × String)
  envAgg : List String
  dockerAgg : List (String × SvcDef)
  conflicts : List String

inductive ReplayOutcome where
  | failed (acc : ReplayAcc) (error : String)
  | conflicted (acc : ReplayAcc)
  | done (acc : ReplayAcc)

inductive TouchedResult where
  | missing (name : String)
  | raised (msg : String)
  | ok (touched : List String)

def replayPhase1 (skillDirs : String → Option SkillPkgM) :
    List String → TouchedResult
  | [] => .ok []
  | name :: rest =>
    match skillDirs name with
    | none => .missing name
    | some pkg =>
      if (pkg.manifest.adds ++ pkg.manifest.modifies).any manifestBadPath then
        .raised "Invalid path in manifest"
      else
        match replayPhase1 skillDirs rest with
        | .missing n => .missing n
        | .raised msg => .raised msg
        | .ok touched =>
          .ok ((pkg.manifest.adds ++ pkg.manifest.modifies ++ touched).eraseDups)

def resetTouched (remap : List (String × String)) (touched : List String)
    (work base : FS) : FS :=
  touched.foldl (fun w rel =>
    let rp := resolvePathRemap remap rel
    match base rp with
    | some c => fsSet w rp c
    | none => fsDel w rp) work

/-- The replay merge loop.  Unlike apply, a missing packaged modify file is
recorded as a conflict for the raw `rel_path` rather than raised, and an
unresolved merge conflict records the *remapped* path. -/
def replayMerges (o : ApplyOracles) (modifyFiles : FS)
    (remap : List (String × String)) :
    List String → FS → FS → FS × FS × List String
  | [], work, base => (work, base, [])
  | rel :: rest, work, base =>
    let resolved := resolvePathRemap remap rel
    match modifyFiles rel with
    | none =>
      let (w2, b2, cs) := replayMerges o modifyFiles remap rest work base
      (w2, b2, rel :: cs)
    | some skillContent =>
      match work resolved with
      | none =>
        replayMerges o modifyFiles remap rest
          (fsSet work resolved skillContent) base
      | some cur =>
        let bb : FS × String :=
          match base resolved with
          | none => (fsSet base resolved cur, cur)
          | some b => (base, b)
        let res := o.mergeFile cur bb.2 skillContent
        if res.clean then
          replayMerges o modifyFiles remap rest
            (fsSet work resolved res.content) bb.1
        else
          match (if o.isGitRepo then o.rerere res.content bb.2 cur skillContent
                 else none) with
          | some autoResolved =>
            replayMerges o modifyFiles remap rest
              (fsSet work resolved autoResolved) bb.1
          | none =>
            let (w2, b2, cs) := replayMerges o modifyFiles remap rest
              (fsSet work resolved res.content) bb.1
            (w2, b2, resolved :: cs)

def replayLoop (o : ApplyOracles) (skillDirs : String → Option SkillPkgM)
    (remap : List (String × String)) :
    List String → ReplayAcc → ReplayOutcome
  | [], acc => .done acc
  | name :: rest, acc =>
    match skillDirs name with
    | none =>
      .failed { acc with perSkill := acc.perSkill ++ [(name, false)] } "KeyError"
    | some pkg =>
      let m := pkg.manifest
      if (m.adds ++ m.modifies).any manifestBadPath then
        .failed { acc with perSkill := acc.perSkill ++ [(name, false)] }
          "Invalid path in manifest"
      else
        let fo := executeFileOps m.file_ops acc.work
        if !fo.1.success then
          .failed
            { acc with
              work := fo.2,
              perSkill := acc.perSkill ++ [(name, false)] }
            "File ops failed"
        else
          let workAdd := (copyAdds pkg.addFiles remap m.adds fo.2).1
          let mr := replayMerges o pkg.modifyFiles remap m.modifies workAdd acc.base
          if mr.2.2 ≠ [] then
            .conflicted
              { acc with
                work := mr.1,
                base := mr.2.1,
                perSkill := acc.perSkill ++ [(name, false)],
                conflicts := acc.conflicts ++ mr.2.2 }
          else
            replayLoop o skillDirs remap rest
              { acc with
                work := mr.1,
                base := mr.2.1,
                perSkill := acc.perSkill ++ [(name, true)],
                npmAgg := dictUpdate acc.npmAgg (manifestNpmDeps m),
                envAgg := acc.envAgg ++ manifestEnvAdds m,
                dockerAgg := dictUpdate acc.dockerAgg (manifestDockerSvcs m) }

structure ReplayResultM where
  success : Bool
  perSkill : List (String × Bool)
  mergeConflicts : Option (List String)
  error : Option String
deriving DecidableEq, Repr

/-- The batch structured application after a clean loop (step 4/5 of
`replay_skills`): npm dependencies, env additions, docker services, then a
failure-suppressed `npm install`. -/
def npmStepF (o : ApplyOracles) (acc : ReplayAcc) (events : List EventM) :
    Except String (FS × List EventM) :=
  if acc.npmAgg ≠ [] then
    match acc.work "package.json" with
    | none => .error "package.json not found"
    | some content =>
      match o.npmMergeO content acc.npmAgg with
      | .error _ => .error "Dependency conflict"
      | .ok s => .ok (fsSet acc.work "package.json" s, events ++ [.npmMergeEv])
  else .ok (acc.work, events)

def envStepF (acc : ReplayAcc) (we : FS × List EventM) : FS × List EventM :=
  if acc.envAgg ≠ [] then
    (match mergeEnvAdditions (we.1 ".env.example") acc.envAgg with
     | some s => fsSet we.1 ".env.example" s
     | none => we.1, we.2 ++ [.envMergeEv])
  else we

def composeStepF (o : ApplyOracles) (acc : ReplayAcc) (we : FS × List EventM) :
    Except String (FS × List EventM) :=
  if acc.dockerAgg ≠ [] then
    match o.composeMergeO (we.1 "docker-compose.yml") acc.dockerAgg with
    | .error _ => .error "Port collision"
    | .ok s => .ok (fsSet we.1 "docker-compose.yml" s, we.2 ++ [.composeMergeEv])
  else .ok we

def installStepF (acc : ReplayAcc) (we : FS × List EventM) :
    FS × List EventM :=
  if acc.npmAgg ≠ [] then (we.1, we.2 ++ [.npmInstallEv]) else we

/-- The batch structured application after a clean loop (step 4/5 of
`replay_skills`): npm dependencies, env additions, docker services, then a
failure-suppressed `npm install`. -/
def replayStructured (o : ApplyOracles) (acc : ReplayAcc)
    (events : List EventM) : Except String (FS × List EventM) :=
  match npmStepF o acc events with
  | .error e => .error e
  | .ok we1 =>
    match composeStepF o acc (envStepF acc we1) with
    | .error e => .error e
    | .ok we3 => .ok (installStepF acc we3)

def replaySkills (o : ApplyOracles) (skills : List String)
    (skillDirs : String → Option SkillPkgM) (remap : List (String × String))
    (work base : FS) (events : List EventM) :
    Except String (ReplayResultM × FS × FS × List EventM) :=
  match replayPhase1 skillDirs skills with
  | .raised msg => .error msg
  | .missing name =>
    .ok ({ success := false, perSkill := [(name, false)],
           mergeConflicts := none,
           error := some ("Missing skill directory for: " ++ name) },
         work, base, events)
  | .ok touched =>
    let work0 := resetTouched remap touched work base
    match replayLoop o skillDirs remap skills
        ⟨work0, base, [], [], [], [], []⟩ with
    | .failed acc err =>
      .ok ({ success := false, perSkill := acc.perSkill,
             mergeConflicts := none, error := some err },
           acc.work, acc.base, events)
    | .conflicted acc =>
      .ok ({ success := false, perSkill := acc.perSkill,
             mergeConflicts := some acc.conflicts,
             error := some "Unresolved merge conflicts" },
           acc.work, acc.base, events)
    | .done acc =>
      match replayStructured o acc events with
      | .error e => .error e
      | .ok (workF, evF) =>
        .ok ({ success := true, perSkill := acc.perSkill,
               mergeConflicts := none, error := none },
             workF, acc.base, evF)

/-- The npm-dependency aggregate of a skill list (`dict.update` in order). -/
def aggNpmOf (skillDirs : String → Option SkillPkgM) (skills : List String) :
    List (String × String) :=
  skills.foldl (fun d n =>
    match skillDirs n with
    | some pkg => dictUpdate d (manifestNpmDeps pkg.manifest)
    | none => d) []

/-- The env-addition aggregate (list `extend` in order — concatenation). -/
def aggEnvOf (skillDirs : String → Option SkillPkgM) (skills : List String) :
    List String :=
  skills.foldl (fun d n =>
    match skillDirs n with
    | some pkg => d ++ manifestEnvAdds pkg.manifest
    | none => d) []

/-- The docker-service aggregate (`dict.update` in order). -/
def aggDockerOf (skillDirs : String → Option SkillPkgM) (skills : List String) :
    List (String × SvcDef) :=
  skills.foldl (fun d n =>
    match skillDirs n with
    | some pkg => dictUpdate d (manifestDockerSvcs pkg.manifest)
    | none => d) []

/-! ### `skills_engine/resolution_cache.py` — `load_resolutions`

The function returns early unless a resolution directory was found
(shipped first, then project-local), `meta.yaml` exists and parses,
`meta.input_hashes` is present, at least one preimage/resolution pair was
found, and the project is a git repository.  Each pair is then loaded into
the rr-cache iff its `meta.file_hashes` entry exists, a skill directory was
given, the three live input files exist, their hashes (abstract `hashFn`,
standing for SHA-256) match the recorded triple, and a non-blank
`.preimage.hash` sidecar is present.  Python `str.strip()` is `strTrim`. -/

structure FileInputHashesM where
  base : String
  current : String
  skill : String
deriving DecidableEq, Repr

structure ResPair where
  relPath : String
  preimage : String
  resolution : String
deriving DecidableEq, Repr

structure RRWrite where
  hash : String
  preimage : String
  postimage : String
deriving DecidableEq, Repr

structure ResCacheView where
  found : Bool
  metaOk : Bool
  inputHashesPresent : Bool
  fileHashes : List (String × FileInputHashesM)
  pairs : List ResPair
  gitOk : Bool
  baseFS : FS
  workFS : FS
  skillFS : Option FS
  sidecar : String → Option String

def isPyWS (c : Char) : Bool :=
  c = ' ' || c = '\t' || c = '\n' || c = '\x0d' || c = '\x0b' || c = '\x0c'

def strTrim (s : String) : String :=
  ⟨((s.data.dropWhile isPyWS).reverse.dropWhile isPyWS).reverse⟩

def pairLoad (hashFn : String → String) (st : ResCacheView) (pr : ResPair) :
    Option RRWrite :=
  match st.fileHashes.lookup pr.relPath with
  | none => none
  | some expected =>
    match st.skillFS with
    | none => none
    | some sk =>
      match st.baseFS pr.relPath with
      | none => none
      | some b =>
        match st.workFS pr.relPath with
        | none => none
        | some cur =>
          match sk pr.relPath with
          | none => none
          | some s =>
            if hashFn b ≠ expected.base then none
            else if hashFn cur ≠ expected.current then none
            else if hashFn s ≠ expected.skill then none
            else
              match st.sidecar pr.relPath with
              | none => none
              | some raw =>
                if strTrim raw = "" then none
                else some ⟨strTrim raw, pr.preimage, pr.resolution⟩

def loadResolutions (hashFn : String → String) (st : ResCacheView) :
    List RRWrite × Bool :=
  if !(st.found && st.metaOk && st.inputHashesPresent) then ([], false)
  else if st.pairs = [] then ([], false)
  else if !st.gitOk then ([], false)
  else
    let writes := st.pairs.filterMap (pairLoad hashFn st)
    (writes, !writes.isEmpty)

/-- Resolution-cache view for C2: the pairs's input hashes all match the
recorded triple (hashFn = id), but no `.preimage.hash` sidecar exists. -/
def resCacheCE : ResCacheView :=
  { found := true
    metaOk := true
    inputHashesPresent := true
    fileHashes := [("f", ⟨"B", "C", "S"⟩)]
    pairs := [⟨"f", "pre", "res"⟩]
    gitOk := true
    baseFS := fun p => if p = "f" then some "B" else none
    workFS := fun p => if p = "f" then some "C" else none
    skillFS := some (fun p => if p = "f" then some "S" else none)
    sidecar := fun _ => none }

/-- Same view but with a sidecar recording the rerere hash. -/
def resCacheW : ResCacheView :=
  { resCacheCE with sidecar := fun p => if p = "f" then some "deadbeef\n" else none }

/-! ### `skills_engine/rebase.py`

The `.g2/base` tree is enumerated by `rebase` (`_walk_dir`), so here it is
an association list rather than a lookup function; the working tree stays a
lookup function since only tracked paths are ever read.  `tracked_files` is
a Python set — the model fixes a canonical enumeration order and
deduplicates with `eraseDups`.  The `diff` subprocess is an oracle
returning `.error` for exit codes ≥ 2, `.ok none` for "no contribution to
the combined patch" and `.ok (some out)` for a contributing hunk; the
merge/rerere subprocesses reuse the `ApplyOracles` fields, and the YAML
serialization of the ledger (backed up as `.g2/state.yaml`) is the
`serialize` parameter. -/

structure RebaseResultM where
  success : Bool
  patch_file : Option String
  files_in_patch : Nat
  rebased_at : Option String
  merge_conflicts : Option (List String)
  backup_pending : Option Bool
  error : Option String
deriving DecidableEq, Repr

abbrev BaseT := List (String × String)

def bGet (b : BaseT) (p : String) : Option String := b.lookup p

def bSet (b : BaseT) (p c : String) : BaseT := upsert b p c

def bDel (b : BaseT) (p : String) : BaseT := b.filter (fun e => e.1 ≠ p)

structure RebaseWorld where
  work : FS
  base : BaseT
  backup : Option (List (String × String))
  ledger : SkillStateM
  resolutions : List (String × String)
  combinedPatch : Option String
  lockHeld : Bool

/-- `_collect_tracked_files` plus the base-dir walk. -/
def collectTracked (st : SkillStateM) (baseKeys : List String) : List String :=
  ((st.applied_skills.foldl
      (fun acc (sk : AppliedSkillM) => acc ++ sk.file_hashes.map Prod.fst) [])
    ++ ((st.custom_modifications.getD []).foldl
        (fun acc (m : CustomModM) => acc ++ m.files_modified) [])
    ++ baseKeys).eraseDups

/-- The backup set of a rebase: every existing tracked working-tree file,
every existing tracked base file (stored under its `.g2/base/` path), and
the state file. -/
def rebaseBackupEntries (serialize : SkillStateM → String) (w : RebaseWorld)
    (tracked : List String) : List (String × String) :=
  (tracked.foldl (fun acc rel =>
      acc
      ++ (match w.work rel with
          | some c => [(rel, c)]
          | none => [])
      ++ (match bGet w.base rel with
          | some c => [(".g2/base/" ++ rel, c)]
          | none => [])) [])
  ++ [(".g2/state.yaml", serialize w.ledger)]

/-- The archival-diff loop: both sides absent skips the file; a diff error
(exit code ≥ 2) raises; a contributing hunk is appended and counted. -/
def diffLoop (diffO : Option String → Option String → Except Unit (Option String)) :
    List String → BaseT → FS → Except Unit (String × Nat)
  | [], _, _ => .ok ("", 0)
  | rel :: rest, base, work =>
    match bGet base rel, work rel with
    | none, none => diffLoop diffO rest base work
    | ob, nw =>
      match diffO ob nw with
      | .error _ => .error ()
      | .ok none => diffLoop diffO rest base work
      | .ok (some out) =>
        match diffLoop diffO rest base work with
        | .error e => .error e
        | .ok (patch, n) => .ok (out ++ patch, n + 1)

/-- Flatten mode: each tracked working-tree file is copied into the base;
a tracked file absent from the working tree is removed from the base. -/
def flattenBase (work : FS) : List String → BaseT → BaseT
  | [], base => base
  | rel :: rest, base =>
    match work rel with
    | some c => flattenBase work rest (bSet base rel c)
    | none =>
      match bGet base rel with
      | some _ => flattenBase work rest (bDel base rel)
      | none => flattenBase work rest base

/-- `saved_content`: the tracked working-tree files before the new base is
copied over them. -/
def savedContent (work : FS) (tracked : List String) : List (String × String) :=
  tracked.filterMap (fun rel => (work rel).map (fun c => (rel, c)))

/-- `copy_dir(new_base, project_root)`: every new-base file overwrites the
working tree. -/
def overlayNewBase (nb : BaseT) (work : FS) : FS :=
  nb.foldl (fun wk e => fsSet wk e.1 e.2) work

/-- The per-file three-way merge loop of new-base mode.  `saved` falsy
(absent or empty — Python truthiness) skips; a file absent from the new
base is restored from `saved`; identical contents skip; no old base in the
backup keeps `saved`; otherwise merge new-base content (ours) against the
old base with the saved modifications (theirs), with a rerere attempt on an
unclean merge; unresolved files keep their conflict markers and are
recorded. -/
def rebaseMergeLoop (o : ApplyOracles) (nb : BaseT)
    (saved : List (String × String)) (entries : List (String × String)) :
    List String → FS → FS × List String
  | [], work => (work, [])
  | rel :: rest, work =>
    let sv := (saved.lookup rel).getD ""
    if sv = "" then rebaseMergeLoop o nb saved entries rest work
    else
      match bGet nb rel with
      | none => rebaseMergeLoop o nb saved entries rest (fsSet work rel sv)
      | some nbc =>
        if nbc = sv then rebaseMergeLoop o nb saved entries rest work
        else
          match entries.lookup (".g2/base/" ++ rel) with
          | none => rebaseMergeLoop o nb saved entries rest (fsSet work rel sv)
          | some oldc =>
            let res := o.mergeFile nbc oldc sv
            if res.clean then
              rebaseMergeLoop o nb saved entries rest (fsSet work rel res.content)
            else
              match (if o.isGitRepo then o.rerere res.content oldc nbc sv
                     else none) with
              | some resolved =>
                rebaseMergeLoop o nb saved entries rest (fsSet work rel resolved)
              | none =>
                let r2 := rebaseMergeLoop o nb saved entries rest
                    (fsSet work rel res.content)
                (r2.1, rel :: r2.2)

/-- The per-skill `file_hashes` refresh of the success tail: a fresh dict
with the new hash of every recorded path that still exists. -/
def refreshSkillHashes (hashFn : String → String) (work : FS)
    (sk : AppliedSkillM) : AppliedSkillM :=
  { sk with file_hashes :=
      sk.file_hashes.foldl (fun acc e =>
        match work e.1 with
        | some c => upsert acc e.1 (hashFn c)
        | none => acc) [] }

/-- The success tail shared by both modes: refresh every skill's hashes,
drop custom modifications, stamp `rebased_at`, write the ledger, clear the
resolution cache, clear the backup, release the lock. -/
def rebaseFinalize (o : ApplyOracles) (nPatch : Nat) (w : RebaseWorld)
    (work_ : FS) (base_ : BaseT) : RebaseResultM × RebaseWorld :=
  ({ success := true
     patch_file := some ".g2/combined.patch"
     files_in_patch := nPatch
     rebased_at := some o.nowTs
     merge_conflicts := none
     backup_pending := none
     error := none },
   { w with
       work := work_
       base := base_
       backup := none
       ledger := { w.ledger with
         applied_skills :=
           w.ledger.applied_skills.map (refreshSkillHashes o.hashFn work_)
         custom_modifications := none
         rebased_at := some o.nowTs }
       resolutions := []
       lockHeld := false })

/-- New-base mode after the patch is written: overlay the new base and run
the merge loop; unresolved conflicts return success=False with the backup
pending, otherwise finalize. -/
def rebaseNewBase (o : ApplyOracles) (nb : BaseT) (w2 : RebaseWorld)
    (tracked : List String) (entries : List (String × String)) (nPatch : Nat) :
    RebaseResultM × RebaseWorld :=
  let mr := rebaseMergeLoop o nb (savedContent w2.work tracked) entries tracked
      (overlayNewBase nb w2.work)
  if mr.2 ≠ [] then
    ({ success := false
       patch_file := some ".g2/combined.patch"
       files_in_patch := nPatch
       rebased_at := none
       merge_conflicts := some mr.2
       backup_pending := some true
       error := some "Merge conflicts" },
     { w2 with work := mr.1, base := nb, lockHeld := false })
  else rebaseFinalize o nPatch { w2 with base := nb } mr.1 nb

/-- After the backup: the diff loop (its subprocess error is the only
exception point, reached before any mutation, so the restore rewrites the
identical bytes and the handler's net effect is clearing the backup and
re-raising), the combined patch, then the mode branch. -/
def rebaseGo (o : ApplyOracles)
    (diffO : Option String → Option String → Except Unit (Option String))
    (newBase : Option BaseT) (w1 : RebaseWorld) (tracked : List String)
    (entries : List (String × String)) : RebaseResultM × RebaseWorld :=
  match diffLoop diffO tracked w1.base w1.work with
  | .error _ =>
    ({ success := false
       patch_file := none
       files_in_patch := 0
       rebased_at := none
       merge_conflicts := none
       backup_pending := none
       error := some "diff failed" },
     { w1 with backup := none, lockHeld := false })
  | .ok pn =>
    match newBase with
    | none =>
      rebaseFinalize o pn.2 { w1 with combinedPatch := some pn.1 }
        ({ w1 with combinedPatch := some pn.1 }).work
        (flattenBase w1.work tracked w1.base)
    | some nb =>
      rebaseNewBase o nb { w1 with combinedPatch := some pn.1 } tracked
        entries pn.2

/-- `rebase`: nothing to do without applied skills; otherwise lock, collect
the tracked set, back up, and run the pipeline. -/
def rebase (o : ApplyOracles)
    (diffO : Option String → Option String → Except Unit (Option String))
    (serialize : SkillStateM → String) (newBase : Option BaseT)
    (w : RebaseWorld) : RebaseResultM × RebaseWorld :=
  if w.ledger.applied_skills = [] then
    ({ success := false
       patch_file := none
       files_in_patch := 0
       rebased_at := none
       merge_conflicts := none
       backup_pending := none
       error := some "No skills applied. Nothing to rebase." }, w)
  else
    let tracked := collectTracked w.ledger (w.base.map Prod.fst)
    let entries := rebaseBackupEntries serialize w tracked
    rebaseGo o diffO newBase
      { w with backup := some entries, lockHeld := true } tracked entries

/-- Concrete flatten-mode rebase world for the C7 witness. -/
def rbWitnessWorld : RebaseWorld where
  work := fun p => if p = "f" then some "X" else none
  base := [("f", "B")]
  backup := none
  ledger := ⟨"0.1.0", "0.1.0", [⟨"s", "1.0", "t0", [("f", "hOld")], none⟩],
    some [], none, none⟩
  resolutions := [("r", "x")]
  combinedPatch := none
  lockHeld := false

/-! ### Concrete apply scenarios used by counterexamples and witnesses -/

/-- Benign oracles: merges are clean and take the skill side, hashing is the
identity, every command succeeds. -/
def benignOracles : ApplyOracles where
  mergeFile := fun _ _ theirs => ⟨true, theirs⟩
  isGitRepo := false
  rerere := fun _ _ _ _ => none
  hashFn := fun s => s
  npmMergeO := fun content _ => .ok content
  composeMergeO := fun _ _ => .ok ""
  runCmd := fun _ => true
  npmInstallOk := true
  nowTs := "2026-01-01T00:00:00Z"

def emptyLedger : SkillStateM :=
  ⟨"0.1.0", "0.1.0", [], none, none, none⟩

/-- A manifest whose only content is a `file_ops` delete of `a/../b` — a
`..`-bearing path that resolves inside the project root. -/
def travManifest : ManifestM :=
  ⟨"s", "1", "0.1.0", [], [], [], [], [⟨"delete", none, none, some "a/../b"⟩],
    none, [], none, none⟩

def travPkg : SkillPkgM := ⟨travManifest, fun _ => none, fun _ => none⟩

def travWorld : ApplyWorld where
  work := fun q => if q = "b" then some "x" else none
  base := fun _ => none
  backup := none
  ledger := emptyLedger
  customizeActive := false
  lockHeld := false
  events := []

/-- Oracles whose three-way merge always reports a conflict. -/
def conflictOracles : ApplyOracles :=
  { benignOracles with mergeFile := fun _ _ _ => ⟨false, "<<<CONFLICT>>>"⟩ }

def convManifest : ManifestM :=
  ⟨"s", "1", "0.1.0", [], ["f"], [], [], [], none, [], none, none⟩

def convPkg : SkillPkgM :=
  ⟨convManifest, fun _ => none, fun q => if q = "f" then some "sk" else none⟩

def convWorld : ApplyWorld where
  work := fun q => if q = "f" then some "cur" else none
  base := fun q => if q = "f" then some "b0" else none
  backup := none
  ledger := emptyLedger
  customizeActive := false
  lockHeld := false
  events := []

/-- Two skills that both declare the env addition `X` and nothing else. -/
def dupDirs : String → Option SkillPkgM := fun n =>
  if n = "a" ∨ n = "b" then
    some ⟨⟨n, "1", "0.1.0", [], [], [], [], [], some ⟨[], ["X"], []⟩, [],
      none, none⟩, fun _ => none, fun _ => none⟩
  else none

def dupWork : FS := fun q => if q = ".env.example" then some "" else none

/-- The conflicts result of `applySkill conflictOracles convPkg convWorld`. -/
def convResult : ApplyResultM :=
  { success := false, skill := "s", version := "1",
    merge_conflicts := some ["f"], backup_pending := some true,
    untracked_changes := some ["f"], error := some "Merge conflicts" }

/-! ## Theorems -/

/-! ### Suffix bookkeeping for backup entries -/

theorem strEndsWith_append_tomb (p : String) :
    strEndsWith (p ++ tombstoneSuffix) tombstoneSuffix = true := by
  simp only [strEndsWith]
  rw [show (p ++ tombstoneSuffix).data = p.data ++ tombstoneSuffix.data from rfl]
  exact (List.isSuffixOf_iff_suffix).mpr (List.suffix_append _ _)

theorem strDropSuffix_append_tomb (p : String) :
    strDropSuffix (p ++ tombstoneSuffix) tombstoneSuffix = p := by
  simp only [strDropSuffix]
  rw [String.ext_iff]
  show ((p.data ++ tombstoneSuffix.data).take
    ((p.data ++ tombstoneSuffix.data).length - tombstoneSuffix.data.length)) = p.data
  rw [List.length_append, Nat.add_sub_cancel]
  exact List.take_left _ _

theorem ne_append_tomb_self (p : String) : p ≠ p ++ tombstoneSuffix := by
  intro h
  have hlen : p.data.length = (p.data ++ tombstoneSuffix.data).length := by
    rw [String.ext_iff] at h
    exact congrArg List.length h
  simp [List.length_append, tombstoneSuffix] at hlen

theorem append_tomb_inj {p q : String}
    (h : p ++ tombstoneSuffix = q ++ tombstoneSuffix) : p = q := by
  rw [String.ext_iff] at h ⊢
  exact List.append_cancel_right h

theorem not_tomb_ne_append {p q : String}
    (hp : strEndsWith p tombstoneSuffix = false) : p ≠ q ++ tombstoneSuffix := by
  intro h
  rw [h, strEndsWith_append_tomb] at hp
  simp at hp

theorem tomb_recover {s : String}
    (h : strEndsWith s tombstoneSuffix = true) :
    strDropSuffix s tombstoneSuffix ++ tombstoneSuffix = s := by
  have hsuf : tombstoneSuffix.data <:+ s.data := (List.isSuffixOf_iff_suffix).mp h
  obtain ⟨l, hl⟩ := hsuf
  have hdrop : strDropSuffix s tombstoneSuffix = ⟨l⟩ := by
    simp only [strDropSuffix]
    rw [String.ext_iff]
    show s.data.take (s.data.length - tombstoneSuffix.data.length) = l
    rw [← hl, List.length_append, Nat.add_sub_cancel]
    exact List.take_left _ _
  rw [hdrop, String.ext_iff]
  show l ++ tombstoneSuffix.data = s.data
  exact hl

/-! ### `restore_backup` pointwise evaluation -/

theorem restoreEntry_untouched {p : String} {e : String × String}
    (h : touchesB p e = false) (cur : FS) : restoreEntry cur e p = cur p := by
  simp only [touchesB, Bool.or_eq_false_iff, decide_eq_false_iff_not] at h
  obtain ⟨h1, h2⟩ := h
  simp only [restoreEntry]
  by_cases ht : strEndsWith e.1 tombstoneSuffix = true
  · rw [if_pos ht]
    have hne : p ≠ strDropSuffix e.1 tombstoneSuffix := by
      intro hpe
      exact h2 (by rw [hpe]; exact (tomb_recover ht).symm)
    simp [fsDel, hne]
  · rw [if_neg ht]
    have hne : p ≠ e.1 := fun hpe => h1 hpe.symm
    simp [fsSet, hne]

theorem restoreEntry_touched {p : String} {e : String × String}
    (hp : strEndsWith p tombstoneSuffix = false)
    (h : touchesB p e = true) (cur : FS) :
    restoreEntry cur e p = entryEffectAt p e := by
  simp only [touchesB, Bool.or_eq_true, decide_eq_true_eq] at h
  rcases h with h | h
  · have ht : strEndsWith e.1 tombstoneSuffix = false := by rw [h]; exact hp
    simp only [restoreEntry, ht, Bool.false_eq_true, if_false, entryEffectAt]
    have hne : e.1 ≠ p ++ tombstoneSuffix := by
      rw [h]; exact ne_append_tomb_self p
    rw [if_neg hne]
    simp [fsSet, h]
  · have ht : strEndsWith e.1 tombstoneSuffix = true := by
      rw [h]; exact strEndsWith_append_tomb p
    simp only [restoreEntry, ht, if_true, entryEffectAt, if_pos h]
    have hd : strDropSuffix e.1 tombstoneSuffix = p := by
      rw [h]; exact strDropSuffix_append_tomb p
    simp [fsDel, hd]

theorem restoreBackup_eval {p : String}
    (hp : strEndsWith p tombstoneSuffix = false) (v : Option String) :
    ∀ (es : List (String × String)) (cur : FS),
      (∀ e ∈ es, touchesB p e = true → entryEffectAt p e = v) →
      restoreBackup es cur p = if es.any (touchesB p) then v else cur p
  | [], cur, _ => by simp [restoreBackup]
  | e :: es, cur, h => by
    have ih := restoreBackup_eval hp v es (restoreEntry cur e)
      (fun e' he' => h e' (List.mem_cons_of_mem _ he'))
    show restoreBackup es (restoreEntry cur e) p = _
    by_cases hte : touchesB p e = true
    · have heff : restoreEntry cur e p = v := by
        rw [restoreEntry_touched hp hte]
        exact h e (List.mem_cons_self _ _) hte
      rw [ih]
      simp only [List.any_cons, hte, Bool.true_or, if_true]
      by_cases ha : es.any (touchesB p) = true
      · simp [ha]
      · simp only [Bool.not_eq_true] at ha
        simp [ha, heff]
    · simp only [Bool.not_eq_true] at hte
      have heq : restoreEntry cur e p = cur p := restoreEntry_untouched hte cur
      rw [ih, heq, List.any_cons, hte, Bool.false_or]

/-- **C1.** (amended) For any file set backed up by `create_backup` and any
intermediate mutation of the working tree, `restore_backup` returns every
listed path to its pre-operation state — existing files byte-identical,
previously-missing paths deleted again — provided no listed path's own name
ends in `.tombstone` (such a name collides with the tombstone encoding and
is mis-restored, see the counterexample). -/
theorem backup_restore_roundtrip (fs mutated : FS) (paths : List String)
    (p : String) (hmem : p ∈ paths)
    (hclean : ∀ q ∈ paths, strEndsWith q tombstoneSuffix = false) :
    restoreBackup (createBackup fs paths) mutated p = fs p := by
  have hp : strEndsWith p tombstoneSuffix = false := hclean p hmem
  have heval := restoreBackup_eval hp (fs p) (createBackup fs paths) mutated
  have hcond : ∀ e ∈ createBackup fs paths,
      touchesB p e = true → entryEffectAt p e = fs p := by
    intro e he htouch
    simp only [createBackup, List.mem_map] at he
    obtain ⟨q, hq, hge⟩ := he
    simp only [touchesB, Bool.or_eq_true, decide_eq_true_eq] at htouch
    cases hfq : fs q with
    | some c =>
      have hbe : backupEntry fs q = (q, c) := by simp [backupEntry, hfq]
      rw [hbe] at hge
      subst hge
      rcases htouch with h1 | h1
      · have hqp : q = p := h1
        simp only [entryEffectAt]
        rw [if_neg (by show q ≠ p ++ tombstoneSuffix; rw [hqp]; exact ne_append_tomb_self p)]
        rw [← hqp, hfq]
      · exfalso
        have : strEndsWith q tombstoneSuffix = true := by
          have h1' : q = p ++ tombstoneSuffix := h1
          rw [h1']; exact strEndsWith_append_tomb p
        rw [hclean q hq] at this
        simp at this
    | none =>
      have hbe : backupEntry fs q = (q ++ tombstoneSuffix, "") := by
        simp [backupEntry, hfq]
      rw [hbe] at hge
      subst hge
      rcases htouch with h1 | h1
      · exfalso
        have h1' : q ++ tombstoneSuffix = p := h1
        rw [← h1', strEndsWith_append_tomb] at hp
        simp at hp
      · have hqp : q = p := append_tomb_inj h1
        simp only [entryEffectAt, if_pos h1]
        rw [← hqp, hfq]
  have hany : (createBackup fs paths).any (touchesB p) = true := by
    rw [List.any_eq_true]
    refine ⟨backupEntry fs p, List.mem_map_of_mem _ hmem, ?_⟩
    cases hfp : fs p with
    | some c =>
      have hbe : backupEntry fs p = (p, c) := by simp [backupEntry, hfp]
      rw [hbe]
      simp [touchesB]
    | none =>
      have hbe : backupEntry fs p = (p ++ tombstoneSuffix, "") := by
        simp [backupEntry, hfp]
      rw [hbe]
      simp [touchesB]
  rw [heval hcond, if_pos hany]

/-- Witness for `backup_restore_roundtrip` at a concrete input: a backed-up
existing file and a backed-up missing file survive an arbitrary overwrite. -/
theorem backup_restore_roundtrip_witness :
    restoreBackup
      (createBackup (fun q => if q = "a.txt" then some "A" else none)
        ["a.txt", "b.txt"])
      (fun _ => some "junk") "a.txt"
    = (fun q : String => if q = "a.txt" then some "A" else none) "a.txt" :=
  backup_restore_roundtrip _ _ _ _ (by decide) (by decide)

/-- **C1 counterexample.** A listed path whose own name ends in `.tombstone`
is not restored: its backup entry is read back as a tombstone for the
truncated name.  Here `f.tombstone` existed with contents `data` at backup
time, the operation deleted it, and `restore_backup` leaves it deleted —
refuting the claim for arbitrary path lists. -/
theorem backup_restore_counterexample :
    (fun q : String => if q = "f.tombstone" then some "data" else none)
        "f.tombstone" = some "data"
    ∧ restoreBackup
        (createBackup (fun q => if q = "f.tombstone" then some "data" else none)
          ["f.tombstone"])
        (fun _ => none) "f.tombstone" = none := by
  constructor
  · decide
  · decide

/-! ### Lock acquisition and release -/

/-- **C4.** On an existing well-formed lock file, `acquire_lock` removes and
re-creates the lock (acquiring it for the caller) iff the recorded timestamp
is more than 5 minutes old or the recorded pid is not alive; otherwise it
fails with a contention error and the lock file is untouched.
`release_lock` deletes a well-formed lock file iff the recorded pid is the
calling process's pid — so a second process's release never deletes a first
process's lock. -/
theorem lock_acquire_release_spec :
    ∀ (now : Int) (myPid : Nat) (alive : Nat → Bool) (l : LockInfo),
      (acquireLock now myPid alive (.info l)
          = (.acquired, .info ⟨myPid, now⟩)
        ↔ (now - l.timestamp > staleTimeoutS ∨ alive l.pid = false))
      ∧ (acquireLock now myPid alive (.info l) = (.contention, .info l)
        ↔ ¬(now - l.timestamp > staleTimeoutS ∨ alive l.pid = false))
      ∧ (releaseLock myPid (.info l) = .absent ↔ l.pid = myPid)
      ∧ (releaseLock myPid (.info l) = .info l ↔ l.pid ≠ myPid) := by
  intro now myPid alive l
  have hstale : isStale now l = decide (now - l.timestamp > staleTimeoutS) := by
    simp [isStale]
  refine ⟨?_, ?_, ?_, ?_⟩
  · simp only [acquireLock, hstale]
    by_cases hs : now - l.timestamp > staleTimeoutS
    · simp [hs]
    · by_cases ha : alive l.pid
      · simp [hs, ha]
      · simp [hs, ha]
  · simp only [acquireLock, hstale]
    by_cases hs : now - l.timestamp > staleTimeoutS
    · simp [hs]
    · by_cases ha : alive l.pid
      · simp [hs, ha]
      · simp [hs, ha]
  · simp only [releaseLock]
    by_cases hpid : l.pid = myPid
    · simp [hpid]
    · simp [hpid]
  · simp only [releaseLock]
    by_cases hpid : l.pid = myPid
    · simp [hpid]
    · simp [hpid]

/-! ### Semver comparison -/

theorem cmpPartsLoop_rep_rep (n : Nat) :
    cmpPartsLoop (List.replicate n 0) (List.replicate n 0) = 0 := by
  induction n with
  | zero => simp [cmpPartsLoop, cmpZeroParts]
  | succ m ih => simpa [List.replicate_succ, cmpPartsLoop] using ih

theorem cmpPartsLoop_rep_pad (b : List Int) :
    ∀ n, b.length ≤ n →
      cmpPartsLoop (List.replicate n 0) (padZero b n) = cmpZeroParts b := by
  induction b with
  | nil =>
    intro n _
    have hpad : padZero ([] : List Int) n = List.replicate n 0 := by
      simp [padZero]
    rw [hpad, cmpPartsLoop_rep_rep]
    rfl
  | cons y ys ih =>
    intro n hb
    match n, hb with
    | n + 1, hb =>
      have hpad : padZero (y :: ys) (n + 1) = y :: padZero ys n := by
        simp [padZero, List.length_cons, Nat.succ_sub_succ]
      rw [hpad, List.replicate_succ]
      show cmpPartsLoop (0 :: List.replicate n 0) (y :: padZero ys n) = cmpZeroParts (y :: ys)
      simp only [cmpPartsLoop, cmpZeroParts]
      by_cases hy : (0 : Int) - y = 0
      · simp only [if_pos hy]
        exact ih n (Nat.le_of_succ_le_succ hb)
      · simp only [if_neg hy]

theorem cmpPartsLoop_pad (a : List Int) :
    ∀ (b : List Int) (n : Nat), a.length ≤ n → b.length ≤ n →
      cmpPartsLoop (padZero a n) (padZero b n) = cmpPartsLoop a b := by
  induction a with
  | nil =>
    intro b n _ hb
    have hpad : padZero ([] : List Int) n = List.replicate n 0 := by
      simp [padZero]
    rw [hpad, cmpPartsLoop_rep_pad b n hb]
    rfl
  | cons x xs ih =>
    intro b n ha hb
    match n, ha with
    | n + 1, ha =>
      have hpadx : padZero (x :: xs) (n + 1) = x :: padZero xs n := by
        simp [padZero, List.length_cons, Nat.succ_sub_succ]
      cases b with
      | nil =>
        have hpadnil : padZero ([] : List Int) (n + 1) = 0 :: padZero [] n := by
          simp [padZero, List.replicate_succ]
        rw [hpadx, hpadnil]
        simp only [cmpPartsLoop]
        by_cases hx : x - 0 = 0
        · simp only [if_pos hx]
          exact ih [] n (Nat.le_of_succ_le_succ ha) (Nat.zero_le n)
        · simp only [if_neg hx]
      | cons y ys =>
        have hpady : padZero (y :: ys) (n + 1) = y :: padZero ys n := by
          simp [padZero, List.length_cons, Nat.succ_sub_succ]
        rw [hpadx, hpady]
        simp only [cmpPartsLoop]
        by_cases hxy : x - y = 0
        · simp only [if_pos hxy]
          exact ih ys n (Nat.le_of_succ_le_succ ha) (Nat.le_of_succ_le_succ hb)
        · simp only [if_neg hxy]

theorem cmpPartsLoop_trichotomy (a : List Int) :
    ∀ (b : List Int), a.length = b.length →
      (cmpPartsLoop a b < 0 ↔ List.Lex (· < ·) a b)
      ∧ (cmpPartsLoop a b = 0 ↔ a = b)
      ∧ (0 < cmpPartsLoop a b ↔ List.Lex (· < ·) b a) := by
  induction a with
  | nil =>
    intro b hlen
    have hb : b = [] := List.length_eq_zero.mp hlen.symm
    subst hb
    refine ⟨?_, ?_, ?_⟩
    · simp only [cmpPartsLoop, cmpZeroParts]
      constructor
      · intro h; omega
      · intro h; cases h
    · simp [cmpPartsLoop, cmpZeroParts]
    · simp only [cmpPartsLoop, cmpZeroParts]
      constructor
      · intro h; omega
      · intro h; cases h
  | cons x xs ih =>
    intro b hlen
    cases b with
    | nil => simp at hlen
    | cons y ys =>
      have hlen' : xs.length = ys.length := by
        simpa [List.length_cons] using hlen
      have iht := ih ys hlen'
      simp only [cmpPartsLoop]
      by_cases hxy : x - y = 0
      · have hxeqy : x = y := by omega
        subst hxeqy
        simp only [if_pos hxy]
        refine ⟨?_, ?_, ?_⟩
        · rw [iht.1]
          constructor
          · exact fun h => List.Lex.cons h
          · intro h
            cases h with
            | rel hr => omega
            | cons h => exact h
        · rw [iht.2.1]
          constructor
          · exact fun h => by rw [h]
          · intro h; injection h
        · rw [iht.2.2]
          constructor
          · exact fun h => List.Lex.cons h
          · intro h
            cases h with
            | rel hr => omega
            | cons h => exact h
      · simp only [if_neg hxy]
        refine ⟨?_, ?_, ?_⟩
        · constructor
          · intro h
            exact List.Lex.rel (by omega)
          · intro h
            cases h with
            | rel hr => omega
            | cons h => omega
        · constructor
          · intro h; exact absurd h hxy
          · intro h
            injection h with h1 _
            omega
        · constructor
          · intro h
            exact List.Lex.rel (by omega)
          · intro h
            cases h with
            | rel hr => omega
            | cons h => omega

/-- **C9.** `compare_semver` on numeric version strings agrees with
left-to-right numeric comparison of the dot-separated components, missing
components read as zero: it is negative iff the zero-padded component list
of `a` is lexicographically less than that of `b`, zero iff they are equal,
and positive iff greater. -/
theorem compare_semver_spec (a b : String) (pa pb : List Int)
    (hpa : parseParts a = some pa) (hpb : parseParts b = some pb) :
    ∃ c, compareSemver a b = some c
      ∧ (c < 0 ↔ List.Lex (· < ·) (padZero pa (max pa.length pb.length))
          (padZero pb (max pa.length pb.length)))
      ∧ (c = 0 ↔ padZero pa (max pa.length pb.length)
          = padZero pb (max pa.length pb.length))
      ∧ (0 < c ↔ List.Lex (· < ·) (padZero pb (max pa.length pb.length))
          (padZero pa (max pa.length pb.length))) := by
  refine ⟨cmpPartsLoop pa pb, ?_, ?_⟩
  · simp [compareSemver, hpa, hpb]
  · have hlen : (padZero pa (max pa.length pb.length)).length
        = (padZero pb (max pa.length pb.length)).length := by
      simp only [padZero, List.length_append, List.length_replicate]
      omega
    have htr := cmpPartsLoop_trichotomy _ _ hlen
    have hpad := cmpPartsLoop_pad pa pb (max pa.length pb.length)
      (Nat.le_max_left _ _) (Nat.le_max_right _ _)
    rw [hpad] at htr
    exact htr

/-- Witness for `compare_semver_spec`: the comparison of `"0.10.0"` and
`"0.9.0"` is positive — components are compared numerically, so `10 > 9`. -/
theorem compare_semver_spec_witness :
    ∃ c, compareSemver "0.10.0" "0.9.0" = some c ∧ 0 < c := by
  obtain ⟨c, hc, h⟩ := compare_semver_spec "0.10.0" "0.9.0" [0, 10, 0] [0, 9, 0]
    (by decide) (by decide)
  refine ⟨c, hc, ?_⟩
  rw [h.2.2]
  show List.Lex (· < ·) (padZero [0, 9, 0] 3) (padZero [0, 10, 0] 3)
  have h1 : padZero [(0 : Int), 9, 0] 3 = [0, 9, 0] := by decide
  have h2 : padZero [(0 : Int), 10, 0] 3 = [0, 10, 0] := by decide
  rw [h1, h2]
  exact List.Lex.cons (List.Lex.rel (by norm_num))

/-! ### npm range compatibility -/

theorem cmpZeroPartsS_parses (b : List String) : ∀ (pb : List Int),
    parsePartsList b = some pb → cmpZeroPartsS b = some (cmpZeroParts pb) := by
  induction b with
  | nil =>
    intro pb hpb
    simp only [parsePartsList, Option.some.injEq] at hpb
    subst hpb
    rfl
  | cons y ys ih =>
    intro pb hpb
    cases hy : strToInt? y with
    | none => simp [parsePartsList, hy] at hpb
    | some yv =>
      cases hys : parsePartsList ys with
      | none => simp [parsePartsList, hy, hys] at hpb
      | some pys =>
        simp only [parsePartsList, hy, hys, Option.some.injEq] at hpb
        subst hpb
        simp only [cmpZeroPartsS, hy, cmpZeroParts]
        by_cases h0 : (0 : Int) - yv = 0
        · simp only [if_pos h0]
          exact ih pys hys
        · simp only [if_neg h0]

theorem cmpPartsS_parses (a : List String) : ∀ (b : List String) (pa pb : List Int),
    parsePartsList a = some pa → parsePartsList b = some pb →
    cmpPartsS a b = some (cmpPartsLoop pa pb) := by
  induction a with
  | nil =>
    intro b pa pb hpa hpb
    simp only [parsePartsList, Option.some.injEq] at hpa
    subst hpa
    exact cmpZeroPartsS_parses b pb hpb
  | cons x xs ih =>
    intro b pa pb hpa hpb
    cases hx : strToInt? x with
    | none => simp [parsePartsList, hx] at hpa
    | some xv =>
      cases hxs : parsePartsList xs with
      | none => simp [parsePartsList, hx, hxs] at hpa
      | some pxs =>
        simp only [parsePartsList, hx, hxs, Option.some.injEq] at hpa
        subst hpa
        cases b with
        | nil =>
          simp only [parsePartsList, Option.some.injEq] at hpb
          subst hpb
          simp only [cmpPartsS, hx, cmpPartsLoop]
          by_cases h0 : xv - 0 = 0
          · simp only [if_pos h0]
            exact ih [] pxs [] hxs rfl
          · simp only [if_neg h0]
        | cons y ys =>
          cases hy : strToInt? y with
          | none => simp [parsePartsList, hy] at hpb
          | some yv =>
            cases hys : parsePartsList ys with
            | none => simp [parsePartsList, hy, hys] at hpb
            | some pys =>
              simp only [parsePartsList, hy, hys, Option.some.injEq] at hpb
              subst hpb
              simp only [cmpPartsS, hx, hy, cmpPartsLoop]
              by_cases h0 : xv - yv = 0
              · simp only [if_pos h0]
                exact ih ys pxs pys hxs hys
              · simp only [if_neg h0]

/-- **C5.** (amended) For differing ranges: two caret ranges are compatible
iff their literal major parts agree, and two tilde ranges iff their literal
major parts agree and their minor parts agree *whenever both ranges spell a
minor out* (a tilde range that omits the minor, e.g. `~1`, is accepted
against any same-major tilde range — see the counterexample); in the
compatible cases the resolved range is the one whose numeric part list is
zero-padded-lexicographically higher (ties keep the existing range), which
is also stated through `List.Lex` on the padded numeric parts; every other
differing combination is incompatible and keeps the existing range. -/
theorem are_ranges_compatible_amended (e r : String) (hne : e ≠ r) :
    (strStartsWith e "^" = true → strStartsWith r "^" = true →
      ((rangeParts e).headD "" ≠ (rangeParts r).headD "" →
        areRangesCompatible e r = some ⟨false, e⟩)
      ∧ (∀ pe pr, (rangeParts e).headD "" = (rangeParts r).headD "" →
          parsePartsList (rangeParts e) = some pe →
          parsePartsList (rangeParts r) = some pr →
          areRangesCompatible e r
            = some ⟨true, if 0 ≤ cmpPartsLoop pe pr then e else r⟩
          ∧ (cmpPartsLoop pe pr < 0
            ↔ List.Lex (· < ·) (padZero pe (max pe.length pr.length))
                (padZero pr (max pe.length pr.length)))))
    ∧ (strStartsWith e "~" = true → strStartsWith r "~" = true →
      strStartsWith e "^" = false →
      (((rangeParts e).headD "" ≠ (rangeParts r).headD ""
          ∨ (1 < (rangeParts e).length ∧ 1 < (rangeParts r).length
              ∧ (rangeParts e).getD 1 "" ≠ (rangeParts r).getD 1 "")) →
        areRangesCompatible e r = some ⟨false, e⟩)
      ∧ (∀ pe pr,
          ¬((rangeParts e).headD "" ≠ (rangeParts r).headD ""
            ∨ (1 < (rangeParts e).length ∧ 1 < (rangeParts r).length
                ∧ (rangeParts e).getD 1 "" ≠ (rangeParts r).getD 1 "")) →
          parsePartsList (rangeParts e) = some pe →
          parsePartsList (rangeParts r) = some pr →
          areRangesCompatible e r
            = some ⟨true, if 0 ≤ cmpPartsLoop pe pr then e else r⟩
          ∧ (cmpPartsLoop pe pr < 0
            ↔ List.Lex (· < ·) (padZero pe (max pe.length pr.length))
                (padZero pr (max pe.length pr.length)))))
    ∧ (¬(strStartsWith e "^" = true ∧ strStartsWith r "^" = true) →
      ¬(strStartsWith e "~" = true ∧ strStartsWith r "~" = true) →
      areRangesCompatible e r = some ⟨false, e⟩) := by
  refine ⟨?_, ?_, ?_⟩
  · intro hce hcr
    have hcc : (strStartsWith e "^" && strStartsWith r "^") = true := by
      rw [hce, hcr]; rfl
    constructor
    · intro hhead
      simp only [areRangesCompatible, if_neg hne, hcc, if_true, if_pos hhead]
    · intro pe pr hhead hpe hpr
      have hS : cmpPartsS (rangeParts e) (rangeParts r)
          = some (cmpPartsLoop pe pr) := cmpPartsS_parses _ _ _ _ hpe hpr
      constructor
      · simp only [areRangesCompatible, if_neg hne, hcc, if_true,
          if_neg (not_not_intro hhead), hS]
      · have hlen : (padZero pe (max pe.length pr.length)).length
            = (padZero pr (max pe.length pr.length)).length := by
          simp only [padZero, List.length_append, List.length_replicate]
          omega
        have htr := cmpPartsLoop_trichotomy _ _ hlen
        rw [cmpPartsLoop_pad pe pr (max pe.length pr.length)
          (Nat.le_max_left _ _) (Nat.le_max_right _ _)] at htr
        exact htr.1
  · intro hte htr hnce
    have hcc : (strStartsWith e "^" && strStartsWith r "^") = false := by
      rw [hnce]; rfl
    have htt : (strStartsWith e "~" && strStartsWith r "~") = true := by
      rw [hte, htr]; rfl
    constructor
    · intro hcond
      simp only [areRangesCompatible, if_neg hne, hcc, Bool.false_eq_true,
        if_false, htt, if_true, if_pos hcond]
    · intro pe pr hcond hpe hpr
      have hS : cmpPartsS (rangeParts e) (rangeParts r)
          = some (cmpPartsLoop pe pr) := cmpPartsS_parses _ _ _ _ hpe hpr
      constructor
      · simp only [areRangesCompatible, if_neg hne, hcc, Bool.false_eq_true,
          if_false, htt, if_true, if_neg hcond, hS]
      · have hlen : (padZero pe (max pe.length pr.length)).length
            = (padZero pr (max pe.length pr.length)).length := by
          simp only [padZero, List.length_append, List.length_replicate]
          omega
        have htri := cmpPartsLoop_trichotomy _ _ hlen
        rw [cmpPartsLoop_pad pe pr (max pe.length pr.length)
          (Nat.le_max_left _ _) (Nat.le_max_right _ _)] at htri
        exact htri.1
  · intro hnc hnt
    have hcc : (strStartsWith e "^" && strStartsWith r "^") = false := by
      cases hc1 : strStartsWith e "^" <;> cases hc2 : strStartsWith r "^" <;>
        simp_all
    have htt : (strStartsWith e "~" && strStartsWith r "~") = false := by
      cases ht1 : strStartsWith e "~" <;> cases ht2 : strStartsWith r "~" <;>
        simp_all
    simp only [areRangesCompatible, if_neg hne, hcc, Bool.false_eq_true,
      if_false, htt]

/-- Witness for `are_ranges_compatible_amended`: merging `^1.9.0` with
`^1.10.0` resolves to `^1.10.0` — parts compare numerically, `10 > 9`. -/
theorem are_ranges_compatible_amended_witness :
    areRangesCompatible "^1.9.0" "^1.10.0" = some ⟨true, "^1.10.0"⟩ := by
  have h := ((are_ranges_compatible_amended "^1.9.0" "^1.10.0" (by decide)).1
    (by decide) (by decide)).2 [1, 9, 0] [1, 10, 0] (by decide) (by decide)
    (by decide)
  rw [h.1]
  have hc : cmpPartsLoop [(1 : Int), 9, 0] [1, 10, 0] = -1 := by decide
  rw [hc]
  norm_num

/-- **C5 counterexample.** The tilde ranges `~1` and `~1.5` do not agree on
the minor version (`~1` spells no minor — zero-padded it is `0` — while
`~1.5` has minor `5`), yet `are_ranges_compatible` reports them compatible
and resolves to `~1.5`, because the minor comparison is skipped whenever
either side omits the minor. -/
theorem are_ranges_compatible_counterexample :
    areRangesCompatible "~1" "~1.5" = some ⟨true, "~1.5"⟩
    ∧ rangeParts "~1" = ["1"] ∧ rangeParts "~1.5" = ["1", "5"] := by
  exact ⟨by decide, by decide, by decide⟩

/-! ### Path safety in `apply` -/

theorem splitOnCharAux_infix (sep : Char) :
    ∀ (l acc : List Char) (part : String),
      part ∈ splitOnCharAux sep l acc → part.data <:+: (acc.reverse ++ l) := by
  intro l
  induction l with
  | nil =>
    intro acc part hmem
    simp only [splitOnCharAux, List.mem_singleton] at hmem
    subst hmem
    simp
  | cons c cs ih =>
    intro acc part hmem
    simp only [splitOnCharAux] at hmem
    by_cases hc : c = sep
    · rw [if_pos hc] at hmem
      rcases List.mem_cons.mp hmem with h | h
      · subst h
        exact (List.prefix_append _ _).isInfix
      · have h1 := ih [] part h
        simp only [List.reverse_nil, List.nil_append] at h1
        exact h1.trans ((List.suffix_cons c cs).trans (List.suffix_append _ _)).isInfix
    · rw [if_neg hc] at hmem
      have h1 := ih (c :: acc) part hmem
      rw [List.reverse_cons, List.append_assoc, List.singleton_append] at h1
      exact h1

theorem containsSub_iff (hay needle : List Char) :
    containsSub hay needle = true ↔ needle <:+: hay := by
  induction hay with
  | nil =>
    simp [containsSub, List.isPrefixOf_iff_prefix, List.infix_nil,
      List.prefix_nil]
  | cons c t ih =>
    simp [containsSub, List.isPrefixOf_iff_prefix, List.infix_cons_iff, ih]

/-- **C3.** (amended) A manifest whose `adds` or `modifies` carries a path
with a `..` segment or an absolute path makes `apply_skill` raise inside
`read_manifest`, before any file is touched — the world is returned
unchanged.  `file_ops` paths, however, are not validated in the manifest:
they are checked only at execution time by resolving against the project
root, so an escaping `file_ops` path aborts that operation while a
`..`-bearing path that resolves inside the root is executed (see the
counterexample, which deletes a working-tree file through `a/../b`). -/
theorem apply_path_safety_amended :
    (∀ (o : ApplyOracles) (pkg : SkillPkgM) (w : ApplyWorld),
      (pkg.manifest.adds ++ pkg.manifest.modifies).any manifestBadPath = true →
      applySkill o pkg w = (.error "Invalid path in manifest", w))
    ∧ (∀ p : String, ".." ∈ splitOnChar '/' p ∨ strStartsWith p "/" = true →
        manifestBadPath p = true)
    ∧ (∀ (ops : List FileOpM) (work : FS) (op : FileOpM),
        op.type = "delete" → optTruthy op.path_ = true →
        safePath (op.path_.getD "") = none →
        executeFileOps (op :: ops) work
          = fileOpsFail "delete: path escapes project root" work) := by
  refine ⟨?_, ?_, ?_⟩
  · intro o pkg w h
    simp only [applySkill, h, if_true]
  · intro p h
    rcases h with h | h
    · have hinf : (".." : String).data <:+: p.data := by
        have := splitOnCharAux_infix '/' p.data [] ".." h
        simpa using this
      simp only [manifestBadPath, Bool.or_eq_true]
      exact Or.inl ((containsSub_iff _ _).mpr hinf)
    · simp only [manifestBadPath, Bool.or_eq_true]
      exact Or.inr h
  · intro ops work op htype hpath hsafe
    simp only [executeFileOps, htype, hpath, hsafe]
    simp

/-- **C3 counterexample.** A manifest whose `file_ops` deletes `a/../b` — a
path with a `..` segment — is applied successfully and deletes the
working-tree file `b`: `apply_skill` does not fail, and it modifies the
working tree. -/
theorem apply_path_safety_counterexample :
    (applySkill benignOracles travPkg travWorld).1
        = .ok { success := true, skill := "s", version := "1",
                merge_conflicts := none, backup_pending := none,
                untracked_changes := none, error := none }
    ∧ (applySkill benignOracles travPkg travWorld).2.work "b" = none
    ∧ travWorld.work "b" = some "x" := by
  refine ⟨by decide, by decide, by decide⟩

/-- Witness for `apply_path_safety_amended`: a manifest adding `../x`
(a `..` path) is rejected with the world unchanged. -/
theorem apply_path_safety_witness :
    applySkill benignOracles
      ⟨⟨"s", "1", "0.1.0", ["../x"], [], [], [], [], none, [], none, none⟩,
        fun _ => none, fun _ => none⟩
      travWorld
    = (.error "Invalid path in manifest", travWorld) :=
  apply_path_safety_amended.1 _ _ _ (by decide)

/-! ### Conflicts return precedes every commit step -/

/-- **C10.** Whenever `apply_skill` returns with unresolved merge conflicts
(`success = false`, `backup_pending = true`), the ledger has not been
written — no applied-skill record was added or replaced — no structured
merge, `npm install`, `post_apply` command, or `test` command has run (the
event trace is unchanged), and the backup is still pending. -/
theorem applyCommit_backup_pending (o : ApplyOracles) (m : ManifestM)
    (remap : List (String × String)) (driftFiles added : List String)
    (w1 : ApplyWorld) (workM baseM : FS) (r : ApplyResultM) (w' : ApplyWorld)
    (h : applyCommit o m remap driftFiles added w1 workM baseM = (.ok r, w')) :
    r.backup_pending = none := by
  simp only [applyCommit] at h
  repeat' split at h
  all_goals rw [Prod.mk.injEq] at h
  all_goals obtain ⟨h1, h2⟩ := h
  all_goals first
    | exact Except.noConfusion h1
    | ((injection h1 with h1) <;> (subst h1; rfl))

theorem apply_conflicts_no_commit (o : ApplyOracles) (pkg : SkillPkgM)
    (w : ApplyWorld) (r : ApplyResultM) (w' : ApplyWorld)
    (h : applySkill o pkg w = (.ok r, w'))
    (hbp : r.backup_pending = some true) :
    r.success = false ∧ w'.ledger = w.ledger ∧ w'.events = w.events
      ∧ w'.backup ≠ none := by
  simp only [applySkill] at h
  repeat' split at h
  all_goals rw [Prod.mk.injEq] at h
  all_goals obtain ⟨h1, h2⟩ := h
  all_goals first
    | exact Except.noConfusion h1
    | ((injection h1 with h1) <;> (subst h1; subst h2; exact Option.noConfusion hbp))
    | skip
  have hm := @Prod.ext _ _ _ ((Except.ok r : Except String ApplyResultM), w') h1 h2
  clear h1 h2
  simp only [applyMain] at hm
  repeat' split at hm
  all_goals rw [Prod.mk.injEq] at hm
  all_goals obtain ⟨h1, h2⟩ := hm
  all_goals first
    | exact Except.noConfusion h1
    | ((injection h1 with h1) <;> (subst h1; subst h2; exact Option.noConfusion hbp))
    | ((injection h1 with h1) <;> (subst h1; subst h2; exact ⟨rfl, rfl, rfl, fun hcon => Option.noConfusion hcon⟩))
    | (exact Option.noConfusion
        ((applyCommit_backup_pending _ _ _ _ _ _ _ _ _ _
          (@Prod.ext _ _ _ ((Except.ok r : Except String ApplyResultM), w') h1 h2)) ▸ hbp))

/-- Witness for `apply_conflicts_no_commit`: a concrete apply that ends in
an unresolved conflict leaves ledger, trace and pending backup intact. -/
theorem apply_conflicts_no_commit_witness :
    (applySkill conflictOracles convPkg convWorld).2.ledger = convWorld.ledger
    ∧ (applySkill conflictOracles convPkg convWorld).2.events = convWorld.events
    ∧ (applySkill conflictOracles convPkg convWorld).2.backup ≠ none := by
  have hres : (applySkill conflictOracles convPkg convWorld).1
      = .ok convResult := by decide
  have h : applySkill conflictOracles convPkg convWorld
      = (.ok convResult, (applySkill conflictOracles convPkg convWorld).2) := by
    rw [← hres]
  obtain ⟨_, hl, he, hb⟩ := apply_conflicts_no_commit _ _ _ _ _ h (by decide)
  exact ⟨hl, he, hb⟩

/-! ### Docker-compose port collisions -/

theorem lookup_append {α : Type} (l₁ l₂ : List (String × α)) (k : String) :
    (l₁ ++ l₂).lookup k
      = match l₁.lookup k with
        | some v => some v
        | none => l₂.lookup k := by
  induction l₁ with
  | nil => simp [List.lookup]
  | cons e t ih =>
    obtain ⟨a, b⟩ := e
    by_cases hk : k = a
    · simp [List.lookup, hk]
    · have hba : (k == a) = false := by simp [hk]
      simp only [List.cons_append, List.lookup, hba]
      exact ih

theorem checkPortsLoop_ok_mono (name : String) :
    ∀ (ports used used' : List String),
      checkPortsLoop name used ports = .ok used' → ∀ x ∈ used, x ∈ used' := by
  intro ports
  induction ports with
  | nil =>
    intro used used' h x hx
    simp only [checkPortsLoop] at h
    injection h with h
    subst h
    exact hx
  | cons p ps ih =>
    intro used used' h x hx
    cases hep : extractHostPort p with
    | none =>
      simp only [checkPortsLoop, hep] at h
      exact ih used used' h x hx
    | some hp =>
      simp only [checkPortsLoop, hep] at h
      by_cases hc : used.contains hp = true
      · rw [if_pos hc] at h
        exact Except.noConfusion h
      · rw [if_neg hc] at h
        exact ih (used ++ [hp]) used' h x (List.mem_append_left _ hx)

theorem checkPortsLoop_collision (name h : String) :
    ∀ (ports used : List String), h ∈ used →
      (∃ p ∈ ports, extractHostPort p = some h) →
      ∃ msg, checkPortsLoop name used ports = .error msg := by
  intro ports
  induction ports with
  | nil =>
    rintro used _ ⟨p, hp, _⟩
    exact absurd hp (List.not_mem_nil p)
  | cons q ps ih =>
    rintro used hu ⟨p, hp, hext⟩
    cases heq : extractHostPort q with
    | none =>
      simp only [checkPortsLoop, heq]
      rcases List.mem_cons.mp hp with rfl | hp'
      · rw [heq] at hext
        exact Option.noConfusion hext
      · exact ih used hu ⟨p, hp', hext⟩
    | some hq =>
      simp only [checkPortsLoop, heq]
      by_cases hc : used.contains hq = true
      · exact ⟨_, by rw [if_pos hc]⟩
      · rw [if_neg hc]
        rcases List.mem_cons.mp hp with rfl | hp'
        · rw [heq] at hext
          injection hext with hh
          subst hh
          exact absurd (List.elem_iff.mpr hu) hc
        · have hmem : h ∈ used ++ [hq] := List.mem_append_left _ hu
          exact ih (used ++ [hq]) hmem ⟨p, hp', hext⟩

theorem insertServicesLoop_collision (h n : String) (d : SvcDef)
    (hport : h ∈ svcHostPorts d) :
    ∀ (newSvcs : List (String × SvcDef)) (existing : ComposeServices)
      (used : List String),
      h ∈ used → (n, d) ∈ newSvcs → (newSvcs.map Prod.fst).Nodup →
      existing.lookup n = none →
      ∃ msg, insertServicesLoop existing used newSvcs = .error msg := by
  intro newSvcs
  induction newSvcs with
  | nil =>
    rintro _ _ _ hmem _ _
    exact absurd hmem (List.not_mem_nil _)
  | cons e rest ih =>
    rintro existing used hu hmem hnd hex
    obtain ⟨m, dm⟩ := e
    have hnd' : (rest.map Prod.fst).Nodup := (List.nodup_cons.mp hnd).2
    have hmnotin : m ∉ rest.map Prod.fst := (List.nodup_cons.mp hnd).1
    simp only [insertServicesLoop]
    by_cases hskip : (existing.lookup m).isSome = true
    · rw [if_pos hskip]
      rcases List.mem_cons.mp hmem with heq | hmem'
      · exfalso
        have h1 : n = m := congrArg Prod.fst heq
        rw [← h1, hex] at hskip
        exact Bool.noConfusion hskip
      · exact ih existing used hu hmem' hnd' hex
    · rw [if_neg hskip]
      cases hcp : checkPortsLoop m used (dm.ports.getD []) with
      | error msg => exact ⟨msg, rfl⟩
      | ok used' =>
        rcases List.mem_cons.mp hmem with heq | hmem'
        · exfalso
          have h1 : n = m := congrArg Prod.fst heq
          have h2 : d = dm := congrArg Prod.snd heq
          obtain ⟨p, hpmem, hpext⟩ := List.mem_filterMap.mp (h2 ▸ hport)
          obtain ⟨msg, hbad⟩ := checkPortsLoop_collision m h
            (dm.ports.getD []) used hu ⟨p, hpmem, hpext⟩
          rw [hcp] at hbad
          exact Except.noConfusion hbad
        · have hu' : h ∈ used' :=
            checkPortsLoop_ok_mono m (dm.ports.getD []) used used' hcp h hu
          have hnm : n ≠ m := by
            intro hcon
            exact hmnotin (hcon ▸ List.mem_map_of_mem Prod.fst hmem')
          have hex' : (existing ++ [(m, dm)]).lookup n = none := by
            rw [lookup_append, hex]
            have : (n == m) = false := by simp [hnm]
            simp [List.lookup, this]
          exact ih (existing ++ [(m, dm)]) used' hu' hmem' hnd' hex'

theorem mapSafePaths_mem :
    ∀ (l ns : List String), mapSafePaths l = some ns →
      ∀ p ∈ l, ∃ np, safePath p = some np ∧ np ∈ ns := by
  intro l
  induction l with
  | nil =>
    intro ns _ p hp
    exact absurd hp (List.not_mem_nil p)
  | cons q rest ih =>
    intro ns hmap p hp
    simp only [mapSafePaths] at hmap
    cases hq : safePath q with
    | none =>
      rw [hq] at hmap
      exact Option.noConfusion hmap
    | some nq =>
      rw [hq] at hmap
      cases hrest : mapSafePaths rest with
      | none =>
        rw [hrest] at hmap
        exact Option.noConfusion hmap
      | some nrest =>
        rw [hrest] at hmap
        injection hmap with hmap
        subst hmap
        rcases List.mem_cons.mp hp with rfl | hp'
        · exact ⟨nq, hq, List.mem_cons_self _ _⟩
        · obtain ⟨np, hnp, hmem⟩ := ih nrest hrest p hp'
          exact ⟨np, hnp, List.mem_cons_of_mem _ hmem⟩

/-- **C6.** (amended) `merge_docker_compose_services` aborts with a
port-collision error whenever a newly inserted service (fresh name, listed
once) declares a host port — extracted only from `ports` entries of the
colon form `HOST:CONTAINER`; a bare `PORT` entry yields no host port — that
an existing service already uses; on that error the compose file is not
written, and the apply pipeline's backup covers `docker-compose.yml`, so
restoring it returns the file byte-identical to its pre-apply state. -/
theorem merge_docker_compose_amended :
    (∀ p h, extractHostPort p = some h →
      ∃ x rest, splitOnChar ':' p = h :: x :: rest)
    ∧ (∀ (file : Option ComposeServices) (newSvcs : List (String × SvcDef))
        (n : String) (d : SvcDef) (h : String),
        (n, d) ∈ newSvcs → (newSvcs.map Prod.fst).Nodup →
        (file.getD []).lookup n = none →
        h ∈ svcHostPorts d → h ∈ collectUsedPorts (file.getD []) →
        ∃ msg, mergeDockerComposeServices file newSvcs = .error msg)
    ∧ (∀ file newSvcs msg,
        mergeDockerComposeServices file newSvcs = .error msg →
        applyComposeMerge file newSvcs = file)
    ∧ (∀ (work mutated : FS) (m : ManifestM)
        (remap : List (String × String)) (bps : List String),
        mapSafePaths (applyFilesToBackup m remap) = some bps →
        (∀ q ∈ bps, strEndsWith q tombstoneSuffix = false) →
        restoreBackup (createBackup work bps) mutated "docker-compose.yml"
          = work "docker-compose.yml") := by
  refine ⟨?_, ?_, ?_, ?_⟩
  · intro p h hext
    simp only [extractHostPort] at hext
    cases hsp : splitOnChar ':' p with
    | nil => rw [hsp] at hext; exact Option.noConfusion hext
    | cons x rest =>
      cases rest with
      | nil => rw [hsp] at hext; exact Option.noConfusion hext
      | cons y rest' =>
        rw [hsp] at hext
        injection hext with hx
        exact ⟨y, rest', by rw [hx]⟩
  · intro file newSvcs n d h hmem hnd hex hport hused
    exact insertServicesLoop_collision h n d hport newSvcs (file.getD [])
      (collectUsedPorts (file.getD [])) hused hmem hnd hex
  · intro file newSvcs msg hmsg
    simp [applyComposeMerge, hmsg]
  · intro work mutated m remap bps hmap hclean
    have hmem : "docker-compose.yml" ∈ applyFilesToBackup m remap := by
      simp [applyFilesToBackup]
    obtain ⟨np, hnp, hnpmem⟩ := mapSafePaths_mem _ _ hmap _ hmem
    have hself : safePath "docker-compose.yml" = some "docker-compose.yml" := by
      decide
    rw [hself] at hnp
    injection hnp with hnp
    subst hnp
    exact backup_restore_roundtrip work mutated bps _ hnpmem hclean

/-- **C6 counterexample.** An existing service uses host port 8080 in
`HOST:CONTAINER` form; a new service declares the same port in bare `PORT`
form — the claim says apply aborts with a port-collision error, but the
merge succeeds and inserts the service: bare entries yield no host port. -/
theorem merge_docker_compose_counterexample :
    mergeDockerComposeServices (some [("web", ⟨some ["8080:80"]⟩)])
        [("api", ⟨some ["8080"]⟩)]
      = .ok [("web", ⟨some ["8080:80"]⟩), ("api", ⟨some ["8080"]⟩)]
    ∧ extractHostPort "8080" = none := ⟨by decide, by decide⟩

/-- Witness for `merge_docker_compose_amended`: the spec's S5 scenario —
existing `web` with `8080:80`, new `api` with `8080:3000` — aborts with a
port-collision error. -/
theorem merge_docker_compose_amended_witness :
    ∃ msg, mergeDockerComposeServices (some [("web", ⟨some ["8080:80"]⟩)])
      [("api", ⟨some ["8080:3000"]⟩)] = .error msg :=
  merge_docker_compose_amended.2.1 (some [("web", ⟨some ["8080:80"]⟩)])
    [("api", ⟨some ["8080:3000"]⟩)] "api" ⟨some ["8080:3000"]⟩ "8080"
    (by decide) (by decide) (by decide) (by decide) (by decide)

/-! ### Replay aggregation -/

theorem lookup_cons_eq {α : Type} (k : String) (b : α) (es : List (String × α)) :
    List.lookup k ((k, b) :: es) = some b := by
  rw [List.lookup_cons]
  simp

theorem lookup_cons_ne {α : Type} {k a : String} (h : k ≠ a) (b : α)
    (es : List (String × α)) :
    List.lookup k ((a, b) :: es) = List.lookup k es := by
  rw [List.lookup_cons]
  have hba : (k == a) = false := by simp [h]
  rw [hba]

theorem lookup_map_replace {α : Type} (k : String) (v : α) :
    ∀ (d : List (String × α)) (k' : String),
      (d.map (fun e => if e.1 = k then (k, v) else e)).lookup k'
        = if k' = k then (if (d.lookup k).isSome then some v else none)
          else d.lookup k' := by
  intro d
  induction d with
  | nil =>
    intro k'
    by_cases hk : k' = k <;> simp [List.lookup, hk]
  | cons e t ih =>
    intro k'
    obtain ⟨a, b⟩ := e
    by_cases hak : a = k
    · subst hak
      rw [List.map_cons, if_pos (show ((a, b) : String × α).1 = a from rfl)]
      by_cases hk : k' = a
      · subst hk
        rw [lookup_cons_eq, lookup_cons_eq]
        simp
      · rw [lookup_cons_ne hk, lookup_cons_ne hk, ih, if_neg hk, if_neg hk]
    · rw [List.map_cons, if_neg (show ¬(((a, b) : String × α).1 = k) from hak)]
      by_cases hk' : k' = a
      · subst hk'
        rw [lookup_cons_eq, lookup_cons_eq, if_neg hak]
      · have hka : k ≠ a := fun hcon => hak hcon.symm
        rw [show List.lookup k' ((a, b) :: t.map
            (fun e => if e.1 = k then (k, v) else e))
            = List.lookup k' (t.map (fun e => if e.1 = k then (k, v) else e))
          from lookup_cons_ne hk' _ _]
        rw [show List.lookup k' ((a, b) :: t) = List.lookup k' t
          from lookup_cons_ne hk' _ _]
        rw [show List.lookup k ((a, b) :: t) = List.lookup k t
          from lookup_cons_ne hka _ _]
        exact ih k'

theorem lookup_upsert {α : Type} (d : List (String × α)) (k k' : String)
    (v : α) :
    (upsert d k v).lookup k' = if k' = k then some v else d.lookup k' := by
  simp only [upsert]
  by_cases hs : (d.lookup k).isSome = true
  · rw [if_pos hs, lookup_map_replace]
    by_cases hk : k' = k
    · simp [hk, hs]
    · simp [hk]
  · rw [if_neg hs, lookup_append]
    by_cases hk : k' = k
    · subst hk
      have hnone : d.lookup k' = none := by
        cases hL : d.lookup k' with
        | none => rfl
        | some w => rw [hL] at hs; simp at hs
      rw [hnone, if_pos rfl, lookup_cons_eq]
    · cases hL : d.lookup k' with
      | none =>
        rw [if_neg hk, lookup_cons_ne hk]
        simp [List.lookup]
      | some w => rw [if_neg hk]

theorem lookup_dictUpdate {α : Type} :
    ∀ (new d : List (String × α)) (k : String),
      (dictUpdate d new).lookup k
        = match (new.reverse).lookup k with
          | some v => some v
          | none => d.lookup k := by
  intro new
  induction new with
  | nil => intro d k; simp [dictUpdate, List.lookup]
  | cons e rest ih =>
    intro d k
    have hstep : dictUpdate d (e :: rest) = dictUpdate (upsert d e.1 e.2) rest := by
      simp [dictUpdate]
    rw [hstep, ih, List.reverse_cons, lookup_append]
    cases hR : (rest.reverse).lookup k with
    | some v => rfl
    | none =>
      rw [lookup_upsert]
      by_cases hk : k = e.1
      · have h1 : (k == e.1) = true := by simp [hk]
        simp [List.lookup, h1, hk]
      · have h1 : (k == e.1) = false := by simp [hk]
        simp [List.lookup, h1, hk]

theorem lookup_foldl_dictUpdate {α : Type} :
    ∀ (ds : List (List (String × α))) (d : List (String × α)) (k : String),
      (ds.foldl dictUpdate d).lookup k
        = match (ds.join.reverse).lookup k with
          | some v => some v
          | none => d.lookup k := by
  intro ds
  induction ds with
  | nil => intro d k; simp [List.lookup]
  | cons new rest ih =>
    intro d k
    show ((rest.foldl dictUpdate (dictUpdate d new)).lookup k) = _
    rw [ih, show ((new :: rest).join : List (String × α)) = new ++ rest.join from rfl,
      List.reverse_append, lookup_append]
    cases hR : (rest.join.reverse).lookup k with
    | some v => rfl
    | none => rw [lookup_dictUpdate]

theorem aggFold_filterMap {α : Type} (g : SkillPkgM → List (String × α))
    (dirs : String → Option SkillPkgM) :
    ∀ (skills : List String) (d : List (String × α)),
      skills.foldl (fun d n =>
          match dirs n with
          | some pkg => dictUpdate d (g pkg)
          | none => d) d
        = (skills.filterMap (fun n => (dirs n).map g)).foldl dictUpdate d := by
  intro skills
  induction skills with
  | nil => intro d; rfl
  | cons n rest ih =>
    intro d
    cases hd : dirs n with
    | none => simp [List.foldl, List.filterMap_cons, hd, ih]
    | some pkg => simp [List.foldl, List.filterMap_cons, hd, ih]

theorem aggEnvFold_join (dirs : String → Option SkillPkgM) :
    ∀ (skills : List String) (d : List String),
      skills.foldl (fun d n =>
          match dirs n with
          | some pkg => d ++ manifestEnvAdds pkg.manifest
          | none => d) d
        = d ++ (skills.filterMap (fun n =>
            (dirs n).map (fun p => manifestEnvAdds p.manifest))).join := by
  intro skills
  induction skills with
  | nil => intro d; simp
  | cons n rest ih =>
    intro d
    cases hd : dirs n with
    | none => simp [List.foldl, List.filterMap_cons, hd, ih]
    | some pkg => simp [List.foldl, List.filterMap_cons, hd, ih]

theorem replayLoop_done (o : ApplyOracles)
    (dirs : String → Option SkillPkgM) (remap : List (String × String)) :
    ∀ (skills : List String) (acc acc' : ReplayAcc),
      replayLoop o dirs remap skills acc = .done acc' →
      acc'.perSkill = acc.perSkill ++ skills.map (fun n => (n, true))
      ∧ acc'.npmAgg = skills.foldl (fun d n =>
          match dirs n with
          | some pkg => dictUpdate d (manifestNpmDeps pkg.manifest)
          | none => d) acc.npmAgg
      ∧ acc'.envAgg = skills.foldl (fun d n =>
          match dirs n with
          | some pkg => d ++ manifestEnvAdds pkg.manifest
          | none => d) acc.envAgg
      ∧ acc'.dockerAgg = skills.foldl (fun d n =>
          match dirs n with
          | some pkg => dictUpdate d (manifestDockerSvcs pkg.manifest)
          | none => d) acc.dockerAgg := by
  intro skills
  induction skills with
  | nil =>
    intro acc acc' h
    simp only [replayLoop] at h
    injection h with h
    subst h
    simp
  | cons name rest ih =>
    intro acc acc' h
    cases hd : dirs name with
    | none =>
      simp only [replayLoop, hd] at h
      exact ReplayOutcome.noConfusion h
    | some pkg =>
      simp only [replayLoop, hd] at h
      by_cases hbad : ((pkg.manifest.adds ++ pkg.manifest.modifies).any
          manifestBadPath) = true
      · rw [if_pos hbad] at h
        exact ReplayOutcome.noConfusion h
      · rw [if_neg hbad] at h
        by_cases hfo : (!(executeFileOps pkg.manifest.file_ops acc.work).1.success)
            = true
        · rw [if_pos hfo] at h
          exact ReplayOutcome.noConfusion h
        · rw [if_neg hfo] at h
          by_cases hmc : (replayMerges o pkg.modifyFiles remap
              pkg.manifest.modifies
              ((copyAdds pkg.addFiles remap pkg.manifest.adds
                (executeFileOps pkg.manifest.file_ops acc.work).2).1)
              acc.base).2.2 ≠ []
          · rw [if_pos hmc] at h
            exact ReplayOutcome.noConfusion h
          · rw [if_neg hmc] at h
            obtain ⟨h1, h2, h3, h4⟩ := ih _ acc' h
            refine ⟨?_, ?_, ?_, ?_⟩
            · rw [h1]; simp [hd, List.append_assoc]
            · rw [h2]; simp [hd]
            · rw [h3]; simp [hd]
            · rw [h4]; simp [hd]

theorem npmStepF_events (o : ApplyOracles) (acc : ReplayAcc)
    (events : List EventM) (we : FS × List EventM)
    (h : npmStepF o acc events = .ok we) :
    we.2 = events ++ (if acc.npmAgg ≠ [] then [EventM.npmMergeEv] else []) := by
  simp only [npmStepF] at h
  by_cases hn : acc.npmAgg ≠ []
  · rw [if_pos hn]
    rw [if_pos hn] at h
    cases hwp : acc.work "package.json" with
    | none =>
      simp only [hwp] at h
      exact Except.noConfusion h
    | some content =>
      simp only [hwp] at h
      cases hmo : o.npmMergeO content acc.npmAgg with
      | error e =>
        simp only [hmo] at h
        exact Except.noConfusion h
      | ok sres =>
        simp only [hmo] at h
        injection h with h
        rw [← h]
  · rw [if_neg hn]
    rw [if_neg hn] at h
    injection h with h
    rw [← h]
    simp

theorem envStepF_events (acc : ReplayAcc) (we : FS × List EventM) :
    (envStepF acc we).2
      = we.2 ++ (if acc.envAgg ≠ [] then [EventM.envMergeEv] else []) := by
  simp only [envStepF]
  by_cases hn : acc.envAgg ≠ []
  · rw [if_pos hn, if_pos hn]
  · rw [if_neg hn, if_neg hn]
    simp

theorem composeStepF_events (o : ApplyOracles) (acc : ReplayAcc)
    (we we' : FS × List EventM) (h : composeStepF o acc we = .ok we') :
    we'.2 = we.2
      ++ (if acc.dockerAgg ≠ [] then [EventM.composeMergeEv] else []) := by
  simp only [composeStepF] at h
  by_cases hn : acc.dockerAgg ≠ []
  · rw [if_pos hn]
    rw [if_pos hn] at h
    cases hmo : o.composeMergeO (we.1 "docker-compose.yml") acc.dockerAgg with
    | error e =>
      simp only [hmo] at h
      exact Except.noConfusion h
    | ok sres =>
      simp only [hmo] at h
      injection h with h
      rw [← h]
  · rw [if_neg hn]
    rw [if_neg hn] at h
    injection h with h
    rw [← h]
    simp

theorem installStepF_events (acc : ReplayAcc) (we : FS × List EventM) :
    (installStepF acc we).2
      = we.2 ++ (if acc.npmAgg ≠ [] then [EventM.npmInstallEv] else []) := by
  simp only [installStepF]
  by_cases hn : acc.npmAgg ≠ []
  · rw [if_pos hn, if_pos hn]
  · rw [if_neg hn, if_neg hn]
    simp

theorem replayStructured_events (o : ApplyOracles) (acc : ReplayAcc)
    (events : List EventM) (workF : FS) (evF : List EventM)
    (h : replayStructured o acc events = .ok (workF, evF)) :
    evF = events
      ++ (if acc.npmAgg ≠ [] then [EventM.npmMergeEv] else [])
      ++ (if acc.envAgg ≠ [] then [EventM.envMergeEv] else [])
      ++ (if acc.dockerAgg ≠ [] then [EventM.composeMergeEv] else [])
      ++ (if acc.npmAgg ≠ [] then [EventM.npmInstallEv] else []) := by
  simp only [replayStructured] at h
  cases h1 : npmStepF o acc events with
  | error e =>
    simp only [h1] at h
    exact Except.noConfusion h
  | ok we1 =>
    simp only [h1] at h
    cases h3 : composeStepF o acc (envStepF acc we1) with
    | error e =>
      simp only [h3] at h
      exact Except.noConfusion h
    | ok we3 =>
      simp only [h3] at h
      injection h with h
      have hev : evF = (installStepF acc we3).2 := by rw [h]
      rw [hev, installStepF_events,
        composeStepF_events o acc (envStepF acc we1) we3 h3,
        envStepF_events, npmStepF_events o acc events we1 h1]

/-- **C8.** (amended) A successful `replay_skills` run replays the named
skills in their original list order (each reported successful once, in
order) and applies structured outcomes exactly once at the end — the trace
gains one npm-merge, env-merge, compose-merge and npm-install event each,
after the whole loop, and only for non-empty aggregates.  Aggregation is
last-write-wins (`dict.update`) for npm dependencies and docker services,
and order-preserving *concatenation* for env additions: duplicates
contributed by different skills are kept (deduplication happens only
against names already declared in the env file — see the counterexample),
which amends the claim's "union (no duplicates)". -/
theorem replay_skills_aggregation (o : ApplyOracles) (skills : List String)
    (skillDirs : String → Option SkillPkgM) (remap : List (String × String))
    (work base : FS) (events : List EventM) (res : ReplayResultM)
    (w' b' : FS) (ev' : List EventM)
    (h : replaySkills o skills skillDirs remap work base events
        = .ok (res, w', b', ev'))
    (hs : res.success = true) :
    res.perSkill = skills.map (fun n => (n, true))
    ∧ ev' = events
        ++ (if aggNpmOf skillDirs skills ≠ [] then [EventM.npmMergeEv] else [])
        ++ (if aggEnvOf skillDirs skills ≠ [] then [EventM.envMergeEv] else [])
        ++ (if aggDockerOf skillDirs skills ≠ [] then [EventM.composeMergeEv]
            else [])
        ++ (if aggNpmOf skillDirs skills ≠ [] then [EventM.npmInstallEv] else [])
    ∧ (∀ k, (aggNpmOf skillDirs skills).lookup k
        = ((skills.filterMap (fun n => (skillDirs n).map
            (fun p => manifestNpmDeps p.manifest))).join.reverse).lookup k)
    ∧ (∀ k, (aggDockerOf skillDirs skills).lookup k
        = ((skills.filterMap (fun n => (skillDirs n).map
            (fun p => manifestDockerSvcs p.manifest))).join.reverse).lookup k)
    ∧ aggEnvOf skillDirs skills
        = (skills.filterMap (fun n => (skillDirs n).map
            (fun p => manifestEnvAdds p.manifest))).join := by
  have hlww : ∀ {α : Type} (g : SkillPkgM → List (String × α)) (k : String),
      ((skills.foldl (fun d n =>
          match skillDirs n with
          | some pkg => dictUpdate d (g pkg)
          | none => d) []).lookup k)
        = ((skills.filterMap (fun n => (skillDirs n).map g)).join.reverse).lookup k := by
    intro α g k
    rw [aggFold_filterMap, lookup_foldl_dictUpdate]
    cases hR : ((skills.filterMap (fun n => (skillDirs n).map g)).join.reverse).lookup k with
    | some v => rfl
    | none => simp [List.lookup]
  have henv : aggEnvOf skillDirs skills
      = (skills.filterMap (fun n => (skillDirs n).map
          (fun p => manifestEnvAdds p.manifest))).join := by
    rw [aggEnvOf, aggEnvFold_join]
    simp
  simp only [replaySkills] at h
  cases hp : replayPhase1 skillDirs skills with
  | raised msg =>
    simp only [hp] at h
    exact Except.noConfusion h
  | missing name =>
    simp only [hp] at h
    injection h with h
    rw [Prod.mk.injEq] at h
    rw [← h.1] at hs
    simp at hs
  | ok touched =>
    simp only [hp] at h
    cases hl : replayLoop o skillDirs remap skills
        ⟨resetTouched remap touched work base, base, [], [], [], [], []⟩ with
    | failed acc err =>
      simp only [hl] at h
      injection h with h
      rw [Prod.mk.injEq] at h
      rw [← h.1] at hs
      simp at hs
    | conflicted acc =>
      simp only [hl] at h
      injection h with h
      rw [Prod.mk.injEq] at h
      rw [← h.1] at hs
      simp at hs
    | done acc =>
      simp only [hl] at h
      cases hst : replayStructured o acc events with
      | error e =>
        simp only [hst] at h
        exact Except.noConfusion h
      | ok we =>
        obtain ⟨workF, evF⟩ := we
        simp only [hst] at h
        injection h with h
        rw [Prod.mk.injEq] at h
        obtain ⟨hres, hrest⟩ := h
        rw [Prod.mk.injEq] at hrest
        obtain ⟨hw, hrest2⟩ := hrest
        rw [Prod.mk.injEq] at hrest2
        obtain ⟨hb, hev⟩ := hrest2
        obtain ⟨h1, h2, h3, h4⟩ := replayLoop_done o skillDirs remap
          skills _ acc hl
        refine ⟨?_, ?_, fun k => hlww _ k, fun k => hlww _ k, henv⟩
        · rw [← hres]
          show acc.perSkill = _
          rw [h1]
          simp
        · rw [← hev, replayStructured_events o acc events workF evF hst,
            h2, h3, h4]
          simp only [aggNpmOf, aggEnvOf, aggDockerOf]

/-- **C8 counterexample.** Two replayed skills each add the env variable
`X` to an initially empty `.env.example`.  The aggregate is the
concatenation `["X", "X"]` — not a duplicate-free union — and the merged
env file ends up declaring `X=` twice. -/
theorem replay_skills_counterexample :
    aggEnvOf dupDirs ["a", "b"] = ["X", "X"]
    ∧ (replaySkills benignOracles ["a", "b"] dupDirs [] dupWork
        (fun _ => none) []).toOption.map (fun x => x.2.1 ".env.example")
      = some (some "\n# Added by skill\nX=\nX=\n")
    ∧ envExistingVars "\n# Added by skill\nX=\nX=\n" = ["X", "X"] := by
  refine ⟨by decide, by decide, by decide⟩

/-- Witness for `replay_skills_aggregation`: the two-skill env scenario
replays successfully, reports both skills in order, and fires the env merge
exactly once at the end. -/
theorem replay_skills_aggregation_witness :
    ∃ res w' b' ev',
      replaySkills benignOracles ["a", "b"] dupDirs [] dupWork
        (fun _ => none) [] = .ok (res, w', b', ev')
      ∧ res.perSkill = [("a", true), ("b", true)]
      ∧ ev' = [EventM.envMergeEv] := by
  have hio : (replaySkills benignOracles ["a", "b"] dupDirs [] dupWork
      (fun _ => none) []).isOk = true := by decide
  cases hE : replaySkills benignOracles ["a", "b"] dupDirs [] dupWork
      (fun _ => none) [] with
  | error e =>
    rw [hE] at hio
    simp [Except.isOk, Except.toBool] at hio
  | ok x =>
    obtain ⟨res, w', b', ev'⟩ := x
    have hsucc : res.success = true := by
      have hres : (replaySkills benignOracles ["a", "b"] dupDirs [] dupWork
          (fun _ => none) []).toOption.map (fun y => y.1.success)
          = some true := by decide
      rw [hE] at hres
      simp [Except.toOption] at hres
      exact hres
    obtain ⟨h1, h2, _, _, _⟩ := replay_skills_aggregation benignOracles
      ["a", "b"] dupDirs [] dupWork (fun _ => none) [] res w' b' ev' hE hsucc
    refine ⟨res, w', b', ev', rfl, ?_, ?_⟩
    · rw [h1]; rfl
    · rw [h2]; decide

/-- A pair loaded by load_resolutions carries the pair's preimage as the
rr-cache preimage and the pair's resolution as the postimage. -/
theorem pairLoad_some_shape (hashFn : String → String) (st : ResCacheView)
    (pr : ResPair) (w : RRWrite) (h : pairLoad hashFn st pr = some w) :
    w.preimage = pr.preimage ∧ w.postimage = pr.resolution := by
  unfold pairLoad at h
  repeat' split at h
  all_goals first
    | exact Option.noConfusion h
    | (injection h with h; subst h; exact ⟨rfl, rfl⟩)

/-- Under the outer guards, load_resolutions is the filterMap of pairLoad
over the discovered pairs, with loaded_any = nonemptiness of the writes. -/
theorem loadResolutions_eq (hashFn : String → String) (st : ResCacheView)
    (h1 : st.found = true) (h2 : st.metaOk = true)
    (h3 : st.inputHashesPresent = true) (h4 : st.pairs ≠ [])
    (h5 : st.gitOk = true) :
    loadResolutions hashFn st =
      (st.pairs.filterMap (pairLoad hashFn st),
       !(st.pairs.filterMap (pairLoad hashFn st)).isEmpty) := by
  unfold loadResolutions
  rw [h1, h2, h3, h5]
  simp [h4]

/-- **C2** (counterexample). A view in which the recorded base/current/skill
hash triple for the pair's rel_path matches the hashes of the live base,
working-tree and skill files exactly (hashFn = id), yet load_resolutions
loads nothing and returns False: the `.preimage.hash` sidecar is absent, so
the pair is skipped even though all three hashes match — refuting the
claimed "if" direction of the iff. -/
theorem load_resolutions_counterexample :
    resCacheCE.fileHashes.lookup "f" = some ⟨id "B", id "C", id "S"⟩
    ∧ resCacheCE.baseFS "f" = some "B"
    ∧ resCacheCE.workFS "f" = some "C"
    ∧ (∃ sk, resCacheCE.skillFS = some sk ∧ sk "f" = some "S")
    ∧ (⟨"f", "pre", "res"⟩ : ResPair) ∈ resCacheCE.pairs
    ∧ loadResolutions id resCacheCE = ([], false) := by
  refine ⟨rfl, rfl, rfl, ⟨_, rfl, rfl⟩, by decide, by decide⟩

/-- **C2** (amended). Once load_resolutions reaches the per-pair loop (a
resolution directory was found, meta.yaml parsed, input_hashes present,
pairs nonempty, git dir obtained), a pair is loaded iff its meta file_hashes
entry exists, a skill directory was given, the live base/current/skill
files exist, their hashes match the recorded triple, AND a `.preimage.hash`
sidecar exists with non-blank content; every loaded pair appears in the
rr-cache writes (and loaded_any is True), and every rr-cache write comes
from some pair, with that pair's preimage and resolution contents. -/
theorem load_resolutions_amended (hashFn : String → String) (st : ResCacheView)
    (pr : ResPair)
    (hrun : st.found = true ∧ st.metaOk = true ∧ st.inputHashesPresent = true
            ∧ st.pairs ≠ [] ∧ st.gitOk = true) :
    ((pairLoad hashFn st pr).isSome ↔
      ∃ expected, st.fileHashes.lookup pr.relPath = some expected
        ∧ ∃ sk, st.skillFS = some sk
        ∧ ∃ b cur sf, st.baseFS pr.relPath = some b
            ∧ st.workFS pr.relPath = some cur ∧ sk pr.relPath = some sf
            ∧ hashFn b = expected.base ∧ hashFn cur = expected.current
            ∧ hashFn sf = expected.skill
            ∧ ∃ raw, st.sidecar pr.relPath = some raw ∧ strTrim raw ≠ "")
    ∧ (∀ w, pairLoad hashFn st pr = some w → pr ∈ st.pairs →
        w ∈ (loadResolutions hashFn st).1
          ∧ (loadResolutions hashFn st).2 = true)
    ∧ (∀ w, w ∈ (loadResolutions hashFn st).1 →
        ∃ q, q ∈ st.pairs ∧ pairLoad hashFn st q = some w
          ∧ w.preimage = q.preimage ∧ w.postimage = q.resolution) := by
  obtain ⟨h1, h2, h3, h4, h5⟩ := hrun
  have hLR := loadResolutions_eq hashFn st h1 h2 h3 h4 h5
  refine ⟨?_, ?_, ?_⟩
  · constructor
    · intro hs
      unfold pairLoad at hs
      cases hfh : st.fileHashes.lookup pr.relPath with
      | none => simp [hfh] at hs
      | some expected =>
        simp only [hfh] at hs
        cases hsk : st.skillFS with
        | none => simp [hsk] at hs
        | some sk =>
          simp only [hsk] at hs
          cases hb : st.baseFS pr.relPath with
          | none => simp [hb] at hs
          | some b =>
            simp only [hb] at hs
            cases hc : st.workFS pr.relPath with
            | none => simp [hc] at hs
            | some cur =>
              simp only [hc] at hs
              cases hsf : sk pr.relPath with
              | none => simp [hsf] at hs
              | some sf =>
                simp only [hsf] at hs
                by_cases e1 : hashFn b = expected.base
                · by_cases e2 : hashFn cur = expected.current
                  · by_cases e3 : hashFn sf = expected.skill
                    · rw [if_neg (by simpa using e1), if_neg (by simpa using e2),
                          if_neg (by simpa using e3)] at hs
                      cases hraw : st.sidecar pr.relPath with
                      | none => simp [hraw] at hs
                      | some raw =>
                        simp only [hraw] at hs
                        by_cases e4 : strTrim raw = ""
                        · rw [if_pos e4] at hs; simp at hs
                        · exact ⟨expected, rfl, sk, rfl, b, cur, sf, rfl, rfl,
                            hsf, e1, e2, e3, raw, rfl, e4⟩
                    · rw [if_neg (by simpa using e1), if_neg (by simpa using e2),
                          if_pos (by simpa using e3)] at hs
                      simp at hs
                  · rw [if_neg (by simpa using e1),
                        if_pos (by simpa using e2)] at hs
                    simp at hs
                · rw [if_pos (by simpa using e1)] at hs
                  simp at hs
    · rintro ⟨expected, hfh, sk, hsk, b, cur, sf, hb, hc, hsf, e1, e2, e3,
        raw, hraw, e4⟩
      unfold pairLoad
      simp only [hfh, hsk, hb, hc, hsf]
      rw [if_neg (by simpa using e1), if_neg (by simpa using e2),
          if_neg (by simpa using e3)]
      simp only [hraw]
      rw [if_neg e4]
      rfl
  · intro w hw hmem
    have hmemw : w ∈ st.pairs.filterMap (pairLoad hashFn st) :=
      List.mem_filterMap.mpr ⟨pr, hmem, hw⟩
    constructor
    · rw [hLR]; exact hmemw
    · rw [hLR]
      simp only [Bool.not_eq_true']
      cases hfm : st.pairs.filterMap (pairLoad hashFn st) with
      | nil => rw [hfm] at hmemw; exact absurd hmemw (List.not_mem_nil w)
      | cons a l => rfl
  · intro w hw
    rw [hLR] at hw
    obtain ⟨q, hq, hpq⟩ := List.mem_filterMap.mp hw
    exact ⟨q, hq, hpq, pairLoad_some_shape hashFn st q w hpq⟩

/-- An entry of an upserted dict is an old entry or the upserted pair. -/
theorem mem_upsert {α : Type} (d : List (String × α)) (k : String) (v : α)
    (q : String) (hv : α) (h : (q, hv) ∈ upsert d k v) :
    (q, hv) ∈ d ∨ (q = k ∧ hv = v) := by
  unfold upsert at h
  split at h
  · obtain ⟨e, he, heq⟩ := List.mem_map.mp h
    by_cases hek : e.1 = k
    · rw [if_pos hek] at heq
      right
      rw [Prod.mk.injEq] at heq
      exact ⟨heq.1.symm, heq.2.symm⟩
    · rw [if_neg hek] at heq
      left
      rw [heq] at he
      exact he
  · rcases List.mem_append.mp h with h1 | h1
    · exact Or.inl h1
    · right
      rcases List.mem_singleton.mp h1 with h2
      rw [Prod.mk.injEq] at h2
      exact h2

/-- Invariant of the hash-refresh fold: every entry of the result hashes an
existing working-tree file. -/
theorem refreshFold_sound (hashFn : String → String) (work : FS)
    (l : List (String × String)) :
    ∀ (acc : List (String × String)),
      (∀ p hv, (p, hv) ∈ acc → ∃ c, work p = some c ∧ hv = hashFn c) →
      ∀ p hv,
        (p, hv) ∈ l.foldl (fun acc e =>
          match work e.1 with
          | some c => upsert acc e.1 (hashFn c)
          | none => acc) acc →
        ∃ c, work p = some c ∧ hv = hashFn c := by
  induction l with
  | nil => intro acc hacc p hv h; exact hacc p hv h
  | cons e rest ih =>
    intro acc hacc p hv h
    rw [List.foldl_cons] at h
    cases hw : work e.1 with
    | none =>
      simp only [hw] at h
      exact ih acc hacc p hv h
    | some c =>
      simp only [hw] at h
      refine ih (upsert acc e.1 (hashFn c)) ?_ p hv h
      intro q qv hq
      rcases mem_upsert acc e.1 (hashFn c) q qv hq with h1 | ⟨h1, h2⟩
      · exact hacc q qv h1
      · subst h1; subst h2; exact ⟨c, hw, rfl⟩

/-- Every entry of a refreshed skill's file_hashes is the hash of an
existing working-tree file. -/
theorem refreshSkillHashes_sound (hashFn : String → String) (work : FS)
    (sk : AppliedSkillM) (p hv : String)
    (h : (p, hv) ∈ (refreshSkillHashes hashFn work sk).file_hashes) :
    ∃ c, work p = some c ∧ hv = hashFn c := by
  unfold refreshSkillHashes at h
  exact refreshFold_sound hashFn work sk.file_hashes []
    (fun p hv h => absurd h (List.not_mem_nil (p, hv))) p hv h

/-- What the success tail of rebase establishes. -/
theorem rebaseFinalize_post (o : ApplyOracles) (nPatch : Nat)
    (w : RebaseWorld) (work_ : FS) (base_ : BaseT) (r : RebaseResultM)
    (w' : RebaseWorld) (h : rebaseFinalize o nPatch w work_ base_ = (r, w')) :
    w'.work = work_
    ∧ w'.ledger.applied_skills
        = w.ledger.applied_skills.map (refreshSkillHashes o.hashFn work_)
    ∧ w'.ledger.custom_modifications = none
    ∧ w'.ledger.rebased_at = some o.nowTs
    ∧ r.success = true
    ∧ r.rebased_at = some o.nowTs
    ∧ w'.resolutions = []
    ∧ w'.backup = none := by
  unfold rebaseFinalize at h
  rw [Prod.mk.injEq] at h
  obtain ⟨h1, h2⟩ := h
  subst h1
  subst h2
  exact ⟨rfl, rfl, rfl, rfl, rfl, rfl, rfl, rfl⟩

/-- C2 witness: on a concrete view with matching hashes and a non-blank
sidecar the amended theorem applies and the pair is loaded. -/
theorem load_resolutions_amended_witness :
    (pairLoad id resCacheW ⟨"f", "pre", "res"⟩).isSome = true
    ∧ (⟨"deadbeef", "pre", "res"⟩ : RRWrite) ∈ (loadResolutions id resCacheW).1
    ∧ (loadResolutions id resCacheW).2 = true := by
  have h := load_resolutions_amended id resCacheW ⟨"f", "pre", "res"⟩
    ⟨rfl, rfl, rfl, by decide, rfl⟩
  refine ⟨?_, ?_, ?_⟩
  · exact h.1.mpr ⟨⟨"B", "C", "S"⟩, rfl, _, rfl, "B", "C", "S", rfl, rfl, rfl,
      rfl, rfl, rfl, "deadbeef\n", rfl, by decide⟩
  · exact (h.2.1 ⟨"deadbeef", "pre", "res"⟩ (by decide) (by decide)).1
  · exact (h.2.1 ⟨"deadbeef", "pre", "res"⟩ (by decide) (by decide)).2

/-- **C7**. After every successful rebase (flatten or new-base mode): the
applied skills are exactly the previous ones with `file_hashes` refreshed
against the final working tree — in particular every recorded hash is the
hash of a file that exists in the final working tree —,
`custom_modifications` is dropped, `rebased_at` is stamped on the ledger
and the result, the project-local resolution cache is empty, and the
backup is cleared. -/
theorem rebase_success_postconditions (o : ApplyOracles)
    (diffO : Option String → Option String → Except Unit (Option String))
    (serialize : SkillStateM → String) (newBase : Option BaseT)
    (w : RebaseWorld) (r : RebaseResultM) (w' : RebaseWorld)
    (h : rebase o diffO serialize newBase w = (r, w'))
    (hs : r.success = true) :
    w'.ledger.applied_skills
        = w.ledger.applied_skills.map (refreshSkillHashes o.hashFn w'.work)
    ∧ (∀ sk, sk ∈ w'.ledger.applied_skills →
        ∀ p hv, (p, hv) ∈ sk.file_hashes →
          ∃ c, w'.work p = some c ∧ hv = o.hashFn c)
    ∧ w'.ledger.custom_modifications = none
    ∧ w'.ledger.rebased_at = some o.nowTs
    ∧ r.rebased_at = some o.nowTs
    ∧ w'.resolutions = []
    ∧ w'.backup = none := by
  simp only [rebase] at h
  split at h
  · rw [Prod.mk.injEq] at h
    obtain ⟨h1, h2⟩ := h
    rw [← h1] at hs
    simp at hs
  · simp only [rebaseGo] at h
    split at h
    · rw [Prod.mk.injEq] at h
      obtain ⟨h1, h2⟩ := h
      rw [← h1] at hs
      simp at hs
    · split at h
      · have hp := rebaseFinalize_post _ _ _ _ _ _ _ h
        refine ⟨?_, ?_, hp.2.2.1, hp.2.2.2.1, hp.2.2.2.2.2.1,
          hp.2.2.2.2.2.2.1, hp.2.2.2.2.2.2.2⟩
        · rw [hp.1]
          exact hp.2.1
        · intro sk hsk p hv hph
          rw [hp.2.1] at hsk
          obtain ⟨sk0, _, hsk0⟩ := List.mem_map.mp hsk
          rw [← hsk0] at hph
          rw [hp.1]
          exact refreshSkillHashes_sound o.hashFn _ sk0 p hv hph
      · simp only [rebaseNewBase] at h
        split at h
        · rw [Prod.mk.injEq] at h
          obtain ⟨h1, h2⟩ := h
          rw [← h1] at hs
          simp at hs
        · have hp := rebaseFinalize_post _ _ _ _ _ _ _ h
          refine ⟨?_, ?_, hp.2.2.1, hp.2.2.2.1, hp.2.2.2.2.2.1,
            hp.2.2.2.2.2.2.1, hp.2.2.2.2.2.2.2⟩
          · rw [hp.1]
            exact hp.2.1
          · intro sk hsk p hv hph
            rw [hp.2.1] at hsk
            obtain ⟨sk0, _, hsk0⟩ := List.mem_map.mp hsk
            rw [← hsk0] at hph
            rw [hp.1]
            exact refreshSkillHashes_sound o.hashFn _ sk0 p hv hph

/-- C7 witness: a concrete flatten-mode rebase succeeds and the
postconditions hold of its result. -/
theorem rebase_success_postconditions_witness :
    ∃ r w', rebase benignOracles (fun _ _ => Except.ok (some "d"))
        (fun _ => "state") none rbWitnessWorld = (r, w')
      ∧ r.success = true
      ∧ w'.ledger.custom_modifications = none
      ∧ w'.ledger.rebased_at = some benignOracles.nowTs
      ∧ r.rebased_at = some benignOracles.nowTs
      ∧ w'.resolutions = []
      ∧ w'.backup = none := by
  have h1 : (rebase benignOracles (fun _ _ => Except.ok (some "d"))
      (fun _ => "state") none rbWitnessWorld).1.success = true := by decide
  cases hE : rebase benignOracles (fun _ _ => Except.ok (some "d"))
      (fun _ => "state") none rbWitnessWorld with
  | mk r w' =>
    rw [hE] at h1
    have hp := rebase_success_postconditions benignOracles
      (fun _ _ => Except.ok (some "d")) (fun _ => "state") none rbWitnessWorld
      r w' hE h1
    exact ⟨r, w', rfl, h1, hp.2.2.1, hp.2.2.2.1, hp.2.2.2.2.1,
      hp.2.2.2.2.2.1, hp.2.2.2.2.2.2⟩

end G2
